import Mathlib

set_option linter.dupNamespace false
set_option linter.unusedVariables false
set_option linter.unnecessarySeqFocus false

/-!
Shallow embedding of `src/markov.rs` (a second-order Markov chain over words).

Modelling conventions:
* `usize` weights become `Nat` (the source only ever adds 1 to a weight, and the
  claims never exercise integer overflow).
* `HashMap` values are modelled as association lists in iteration order, with the
  key-uniqueness that `HashMap` guarantees; `HashMap::get`, the entry API,
  `remove` and `retain` become the corresponding association-list operations.
* rand's `WeightedIndex<usize>` is modelled by the weight vector it represents;
  `WeightedIndex::new` fails with `NoItem` on an empty iterator and with
  `AllWeightsZero` when the total weight is zero (the negative-weight check can
  never fire for `usize`), exactly as in rand.
* Fallible operations return `Except`: a `.error ()` of `Except Unit` models a
  panic (`unwrap` / `expect` / out-of-bounds indexing / `unreachable!`), and
  `Except WeightedError` models the recoverable `Result` of deserialization.
* A random source is modelled as the stream (`List Nat`) of raw draws it will
  produce; each weighted sample consumes one draw `r` and uses `r % total` as
  the uniform pick in `[0, total)`, which ranges over exactly the outcomes the
  real sampler can produce.
-/

/-- Rust `enum Word` from markov.rs: the `Start` and `End` sentinels, or an
observed vocabulary word. -/
inductive Word : Type
  | Start : Word
  | End : Word
  | Word : String → Word
deriving DecidableEq

/-- rand's `WeightedError` (`rand::distributions::WeightedError`). -/
inductive WeightedError : Type
  | NoItem : WeightedError
  | InvalidWeight : WeightedError
  | AllWeightsZero : WeightedError
  | TooMany : WeightedError
deriving DecidableEq

/-- Model of rand's `WeightedIndex<usize>`: the weight vector it was built from
(the real structure stores cumulative weights, which carry the same data). -/
structure WeightedIndex : Type where
  weights : List Nat
deriving DecidableEq

/-- rand's `WeightedIndex::new` for `usize` weights: `NoItem` on an empty
iterator, `AllWeightsZero` when the total weight is zero, success otherwise
(zero weights among positive ones are accepted and simply never sampled). -/
def WeightedIndex.new (ws : List Nat) : Except WeightedError WeightedIndex :=
  match ws with
  | [] => .error .NoItem
  | _ :: _ => if ws.sum = 0 then .error .AllWeightsZero else .ok ⟨ws⟩

/-- rand's `WeightedIndex::update_weights` for the single-pair call pattern
`&[(i, w)]` used by `Entry::insert`: fails on an out-of-range index, or when the
updated total weight would be zero. -/
def WeightedIndex.update_weights (d : WeightedIndex) (i : Nat) (w : Nat) :
    Except WeightedError WeightedIndex :=
  if i < d.weights.length then
    if (d.weights.set i w).sum = 0 then .error .AllWeightsZero
    else .ok ⟨d.weights.set i w⟩
  else .error .InvalidWeight

/-- Index selected by a weighted distribution for a uniform draw `x` in
`[0, total)`: the first index whose cumulative weight exceeds `x`. -/
def cumIdx : List Nat → Nat → Nat
  | [], _ => 0
  | w :: rest, x => if x < w then 0 else cumIdx rest (x - w) + 1

/-- rand's `Distribution::sample` on a `WeightedIndex`, with the uniform draw in
`[0, total)` obtained as `r % total` from the raw draw `r`. Every
`WeightedIndex` constructible through `new` / `update_weights` has a positive
total. -/
def WeightedIndex.sample (d : WeightedIndex) (r : Nat) : Nat :=
  cumIdx d.weights (r % d.weights.sum)

/-- Rust `struct Entry`: the successor pairs of one context plus the sampling
distribution derived from their weights. -/
structure Entry : Type where
  weight_pairs : List (Word × Nat)
  dist : WeightedIndex
deriving DecidableEq

/-- `Entry::new`: a single pair at weight 1. `WeightedIndex::new(once(1))`
always succeeds (the `.expect` cannot fire) and yields the weight vector `[1]`. -/
def Entry.new (word : Word) : Entry :=
  ⟨[(word, 1)], ⟨[1]⟩⟩

/-- `Entry::gen_new_weights`: rebuild the distribution from the current pairs. -/
def Entry.gen_new_weights (e : Entry) : Except WeightedError WeightedIndex :=
  WeightedIndex.new (e.weight_pairs.map Prod.snd)

/-- `Entry::get_random`: `weight_pairs[dist.sample(rng)].0.clone()`; the panic of
out-of-bounds slice indexing is modelled as `.error ()`. -/
def Entry.get_random (e : Entry) (r : Nat) : Except Unit Word :=
  match e.weight_pairs[e.dist.sample r]? with
  | some p => .ok p.1
  | none => .error ()

/-- The linear scan of `Entry::insert`: find the first pair whose word equals
`new_word` and increment its weight; returns the updated pair list, the index of
the match, and the new weight at that index (`none` when no pair matches). -/
def scanBump (new_word : Word) : List (Word × Nat) → Option (List (Word × Nat) × Nat × Nat)
  | [] => none
  | (word, weight) :: rest =>
    if word = new_word then some ((word, weight + 1) :: rest, 0, weight + 1)
    else
      match scanBump new_word rest with
      | some (rest1, i, w) => some ((word, weight) :: rest1, i + 1, w)
      | none => none

/-- `Entry::insert`: bump the first matching pair and update the distribution in
place, or append `(new_word, 1)` and rebuild the whole distribution; the two
`.expect` panics are modelled as `.error ()`. -/
def Entry.insert (e : Entry) (new_word : Word) : Except Unit Entry :=
  match scanBump new_word e.weight_pairs with
  | some (pairs1, i, w) =>
    match e.dist.update_weights i w with
    | .ok d => .ok ⟨pairs1, d⟩
    | .error _ => .error ()
  | none =>
    match WeightedIndex.new ((e.weight_pairs ++ [(new_word, 1)]).map Prod.snd) with
    | .ok d => .ok ⟨e.weight_pairs ++ [(new_word, 1)], d⟩
    | .error _ => .error ()

/-- `impl TryFrom<HashMap<Word, usize>> for Entry`: the map is given as its
iteration sequence; `weight_pairs` is filled in iteration order and the
distribution is built by `WeightedIndex::new` over the same weights. -/
def entryTryFrom (map : List (Word × Nat)) : Except WeightedError Entry :=
  match WeightedIndex.new (map.map Prod.snd) with
  | .ok d => .ok ⟨map, d⟩
  | .error err => .error err

/-- `impl From<Entry> for HashMap<Word, usize>`: collect the pairs. -/
def entryIntoMap (e : Entry) : List (Word × Nat) :=
  e.weight_pairs

/-- `WORD_COUNT = 2`: a context (`WordArray = [Word; 2]`) is an ordered pair. -/
abbrev WordArray : Type := Word × Word

/-- `START_WORDS = [Start, Start]`. -/
def START_WORDS : WordArray := (Word.Start, Word.Start)

/-- Rust `struct Markov`: `HashMap<WordArray, Entry>` as an association list in
iteration order with unique keys. -/
structure Markov : Type where
  entries : List (WordArray × Entry)
deriving DecidableEq

/-- `HashMap::get` on the association list. -/
def alookup (k : WordArray) : List (WordArray × Entry) → Option Entry
  | [] => none
  | p :: rest => if p.1 = k then some p.2 else alookup k rest

/-- `Markov::new`. -/
def Markov.new : Markov := ⟨[]⟩

/-- The `HashMap` entry API used by `Markov::insert`: occupied slot delegates to
`Entry::insert` in place, vacant slot stores `Entry::new(word)`. -/
def upsertEntries (index : WordArray) (word : Word) :
    List (WordArray × Entry) → Except Unit (List (WordArray × Entry))
  | [] => .ok [(index, Entry.new word)]
  | p :: rest =>
    if p.1 = index then
      (p.2.insert word).map (fun e => (p.1, e) :: rest)
    else
      (upsertEntries index word rest).map (fun es => p :: es)

/-- `Markov::insert`. -/
def Markov.insert (m : Markov) (index : WordArray) (word : Word) : Except Unit Markov :=
  (upsertEntries index word m.entries).map Markov.mk

/-- The loop of `Markov::insert_sequence`, carrying the sliding context pair
`(p0, p1)` (the Rust `prevs`). -/
def insertSeqGo (m : Markov) (p0 p1 : Word) : List String → Except Unit Markov
  | [] => m.insert (p0, p1) Word.End
  | cur :: rest => do
    let w := Word.Word cur
    let m1 ← m.insert (p0, p1) w
    insertSeqGo m1 p1 w rest

/-- `Markov::insert_sequence`: walk the sliding context from `(Start, Start)`,
then record the terminal transition to `End`. -/
def Markov.insert_sequence (m : Markov) (seq : List String) : Except Unit Markov :=
  insertSeqGo m Word.Start Word.Start seq

/-- In-place update of the entry stored at one key (the `get_mut` write in
`Markov::clean`). -/
def setEntry (es : List (WordArray × Entry)) (k : WordArray) (e : Entry) :
    List (WordArray × Entry) :=
  es.map (fun p => if p.1 = k then (k, e) else p)

/-- Phase 1 of `Markov::clean`: among the `(Start, Start)` successors, retain
the pairs of weight > 1 while collecting the removed words, rebuild the start
distribution (the `.unwrap()` panic is modelled as `.error ()`), then remove the
context `[Start, k]` for every removed word `k`. -/
def Markov.cleanPhase1 (m : Markov) : Except Unit Markov :=
  match alookup START_WORDS m.entries with
  | none => .ok m
  | some start =>
    match WeightedIndex.new
        ((start.weight_pairs.filter (fun p => decide (1 < p.2))).map Prod.snd) with
    | .error _ => .error ()
    | .ok d =>
      .ok ⟨((start.weight_pairs.filter (fun p => decide (p.2 ≤ 1))).map Prod.fst).foldl
        (fun es k => es.filter (fun p => decide (p.1 ≠ (Word.Start, k))))
        (setEntry m.entries START_WORDS
          ⟨start.weight_pairs.filter (fun p => decide (1 < p.2)), d⟩)⟩

/-- The reachability traversal of `Markov::clean`: a stack of contexts to visit,
a visited set, and for each newly visited context a push of `[key[1], word]` for
every successor word. The source deduplicates on the address of the stored
entry; distinct occupied slots of a `HashMap` have distinct keys and distinct
addresses, so key identity is the same dedup (the spec notes this explicitly). -/
def cleanVisit (entries : List (WordArray × Entry)) (visited : List WordArray)
    (stack : List WordArray) : List WordArray :=
  match stack with
  | [] => visited
  | key :: rest =>
    match h : alookup key entries with
    | none => cleanVisit entries visited rest
    | some e =>
      if hv : key ∈ visited then cleanVisit entries visited rest
      else cleanVisit entries (key :: visited)
        (e.weight_pairs.map (fun p => (key.2, p.1)) ++ rest)
termination_by
  (((entries.map Prod.fst).filter (fun x => decide (¬ x ∈ visited))).length, stack.length)
decreasing_by
  · apply Prod.Lex.right
    simp
  · apply Prod.Lex.right
    simp
  · apply Prod.Lex.left
    have hkmem : key ∈ entries.map Prod.fst := by
      clear hv
      induction entries with
      | nil => simp [alookup] at h
      | cons p rest ih =>
        simp only [alookup] at h
        by_cases hp : p.1 = key
        · simp [hp]
        · simp only [hp, if_false] at h
          simp [ih h]
    have hmono : ∀ (l : List WordArray) (p q : WordArray → Bool),
        (∀ x, p x = true → q x = true) →
        (l.filter p).length ≤ (l.filter q).length := by
      intro l p q himp
      induction l with
      | nil => simp
      | cons a l ih =>
        by_cases hp : p a = true
        · simp only [List.filter, hp, himp a hp]
          simpa using ih
        · simp only [List.filter, Bool.not_eq_true] at hp ⊢
          rw [hp]
          cases hq : q a <;> simp <;> omega
    clear h
    generalize entries.map Prod.fst = l at hkmem
    induction l with
    | nil => cases hkmem
    | cons a l ih =>
      have himp : ∀ x : WordArray,
          (decide (¬ x ∈ key :: visited)) = true → (decide (¬ x ∈ visited)) = true := by
        intro x hx
        simp only [decide_eq_true_eq, List.mem_cons, not_or] at hx ⊢
        exact hx.2
      rcases List.mem_cons.mp hkmem with rfl | hk2
      · simp only [List.filter]
        have h1 : decide (¬ key ∈ key :: visited) = false := by simp
        have h2 : decide (¬ key ∈ visited) = true := by simpa using hv
        rw [h1, h2]
        simpa using Nat.lt_succ_of_le (hmono l _ _ himp)
      · simp only [List.filter]
        have := ih hk2
        cases h1 : decide (¬ a ∈ key :: visited) <;>
          cases h2 : decide (¬ a ∈ visited) <;> simp_all <;> omega

/-- `Markov::clean`: phase 1, then removal of every context not reached by the
traversal; returns the number of removed contexts (size before minus after). -/
def Markov.clean (m : Markov) : Except Unit (Markov × Nat) :=
  m.cleanPhase1 >>= fun m1 =>
    .ok (⟨m1.entries.filter
        (fun p => decide (p.1 ∈ cleanVisit m1.entries [] [START_WORDS]))⟩,
      m.entries.length - (m1.entries.filter
        (fun p => decide (p.1 ∈ cleanVisit m1.entries [] [START_WORDS]))).length)

/-- Rust `struct Chain`: the table's entries, the mutable 2-token current
context, and the random source (modelled as its stream of raw draws). -/
structure Chain : Type where
  entries : List (WordArray × Entry)
  cur_words : WordArray
  rng : List Nat
deriving DecidableEq

/-- `Markov::generate_sequence`. -/
def Markov.generate_sequence (m : Markov) (rng : List Nat) : Chain :=
  ⟨m.entries, START_WORDS, rng⟩

/-- `Iterator::next` for `Chain`: absent context ends the walk (`?`); otherwise
one successor is sampled, the context advances to `(cur[1], word)`, a `Word`
yields its string, `End` ends the walk, and a sampled `Start` hits
`unreachable!` (modelled, like the indexing panic inside `get_random`, as
`.error ()`). -/
def Chain.next (ch : Chain) : Except Unit (Option String × Chain) :=
  match alookup ch.cur_words ch.entries with
  | none => .ok (none, ch)
  | some cur_entry =>
    match cur_entry.get_random (ch.rng.headD 0) with
    | .error _ => .error ()
    | .ok word =>
      let ch1 : Chain := ⟨ch.entries, (ch.cur_words.2, word), ch.rng.tail⟩
      match word with
      | .Word w => .ok (some w, ch1)
      | .End => .ok (none, ch1)
      | .Start => .error ()

/-- The list of (context, value) insert calls that claim C3 attributes to
`insert_sequence`, built from the claim's own description, generalized to an
arbitrary initial window `(p0, p1)`: the contexts are the successive 2-token
windows of the padded token list `p0, p1, w1, ..., wn` and the inserted values
are `Word w1, ..., Word wn` followed by `End`. -/
def specCallsFrom (p0 p1 : Word) (ws : List String) : List (WordArray × Word) :=
  let ts := ws.map Word.Word
  let padded := p0 :: p1 :: ts
  (padded.zip (padded.drop 1)).zip (ts ++ [Word.End])

/-- `specCallsFrom` at the initial window `(Start, Start)`: exactly the insert
calls `(Start,Start) -> Word w1`, `(Start, Word w1) -> Word w2`, ...,
`(Word w_{n-1}, Word w_n) -> End` described by claim C3 (and the single call
`(Start,Start) -> End` for the empty sequence). -/
def specCalls (ws : List String) : List (WordArray × Word) :=
  specCallsFrom Word.Start Word.Start ws

/-- Total weight mass of an entry. -/
def entryMass (e : Entry) : Nat :=
  (e.weight_pairs.map Prod.snd).sum

/-- Well-formedness of an entry as maintained by the source: the distribution
is consistent with the pair weights and the total weight is positive (this is
what every `WeightedIndex` constructed by the source guarantees). -/
def Entry.wf (e : Entry) : Prop :=
  e.dist.weights = e.weight_pairs.map Prod.snd ∧ 0 < (e.weight_pairs.map Prod.snd).sum

/-- No stored entry has `Start` as a successor token. -/
def NoStartSucc (es : List (WordArray × Entry)) : Prop :=
  ∀ p ∈ es, ∀ q ∈ p.2.weight_pairs, q.1 ≠ Word.Start

/-- No context key contains `End`. -/
def NoEndCtx (es : List (WordArray × Entry)) : Prop :=
  ∀ p ∈ es, p.1.1 ≠ Word.End ∧ p.1.2 ≠ Word.End

/-- `Start` occurs in the trailing position of a context key only in the
`(Start, Start)` context itself. -/
def StartTrailOnly (es : List (WordArray × Entry)) : Prop :=
  ∀ p ∈ es, p.1.2 = Word.Start → p.1 = START_WORDS

/-- Every stored entry is well-formed. -/
def EntriesWF (es : List (WordArray × Entry)) : Prop :=
  ∀ p ∈ es, p.2.wf

/-- Tables reachable from the empty table through successful `insert_sequence`
and `clean` calls (the public training and pruning API). -/
inductive Built : Markov → Prop
  | empty : Built ⟨[]⟩
  | insert_seq {m m1 : Markov} {ws : List String} :
      Built m → m.insert_sequence ws = .ok m1 → Built m1
  | cleaned {m m1 : Markov} {n : Nat} :
      Built m → m.clean = .ok (m1, n) → Built m1

/-- Tables reachable from the empty table through successful `insert_sequence`
calls only. -/
inductive BuiltI : Markov → Prop
  | empty : BuiltI ⟨[]⟩
  | insert_seq {m m1 : Markov} {ws : List String} :
      BuiltI m → m.insert_sequence ws = .ok m1 → BuiltI m1

/-- Reachability between contexts as described by claim C5: starting from
`(Start, Start)`, from a context `c = (p2, p1)` whose entry contains the
successor `s` one may move to `(p1, s)`. -/
inductive Reaches (es : List (WordArray × Entry)) : WordArray → Prop
  | start : Reaches es START_WORDS
  | step {c : WordArray} {e : Entry} {s : Word} {w : Nat} :
      Reaches es c → alookup c es = some e → (s, w) ∈ e.weight_pairs →
      Reaches es (c.2, s)

/-- Serialized form of the table: each entry replaced by its Word-to-count map
(serde `into = "HashMap<Word, usize>"` per entry, transparent at the table). -/
def markovIntoMap (m : Markov) : List (WordArray × List (Word × Nat)) :=
  m.entries.map (fun p => (p.1, entryIntoMap p.2))

/-- Deserialization of the table, entry by entry in iteration order: every
entry is rebuilt through `entryTryFrom`, and the first failure aborts the whole
load (serde is atomic at the table level). -/
def markovTryFromGo :
    List (WordArray × List (Word × Nat)) → Except WeightedError (List (WordArray × Entry))
  | [] => .ok []
  | p :: rest =>
    match entryTryFrom p.2 with
    | .error err => .error err
    | .ok e =>
      match markovTryFromGo rest with
      | .error err => .error err
      | .ok es => .ok ((p.1, e) :: es)

/-- Deserialization of the table: all entries rebuilt, or one error. -/
def markovTryFrom (maps : List (WordArray × List (Word × Nat))) :
    Except WeightedError Markov :=
  (markovTryFromGo maps).map Markov.mk

/-- The conjunction of the table invariants that training and pruning maintain:
no `Start` successor, no `End` in a context key, `Start` trailing only in the
start context, and every stored entry well-formed. -/
def TableInv (es : List (WordArray × Entry)) : Prop :=
  NoStartSucc es ∧ NoEndCtx es ∧ StartTrailOnly es ∧ EntriesWF es

theorem except_bind_ok {γ α β : Type} (a : α) (f : α → Except γ β) :
    (Except.ok a >>= f) = f a := rfl

theorem except_bind_error {γ α β : Type} (err : γ) (f : α → Except γ β) :
    ((Except.error err : Except γ α) >>= f) = Except.error err := rfl

theorem insertSeqGo_eq_foldlM (ws : List String) :
    ∀ (m : Markov) (p0 p1 : Word),
      insertSeqGo m p0 p1 ws =
        (specCallsFrom p0 p1 ws).foldlM (fun mm c => mm.insert c.1 c.2) m := by
  induction ws with
  | nil =>
    intro m p0 p1
    show m.insert (p0, p1) Word.End =
      (m.insert (p0, p1) Word.End >>= fun b => pure b)
    cases m.insert (p0, p1) Word.End with
    | error e => rfl
    | ok m1 => rfl
  | cons c rest ih =>
    intro m p0 p1
    show (m.insert (p0, p1) (Word.Word c) >>=
        fun m1 => insertSeqGo m1 p1 (Word.Word c) rest) =
      (m.insert (p0, p1) (Word.Word c) >>= fun m1 =>
        (specCallsFrom p1 (Word.Word c) rest).foldlM (fun mm cc => mm.insert cc.1 cc.2) m1)
    cases m.insert (p0, p1) (Word.Word c) with
    | error e => rfl
    | ok m1 => exact ih m1 p1 (Word.Word c)

/-- Claim C3: for every sequence of word-strings, `insert_sequence` performs
exactly the insert calls `(Start,Start) -> Word w1`, `(Start, Word w1) ->
Word w2`, ..., `(Word w_{n-1}, Word w_n) -> End` (for the empty sequence, the
single call `(Start,Start) -> End`): running `insert_sequence` is the same as
folding `Markov.insert` over that exact call list (`specCalls`), each context
being the previous one with the oldest element dropped and the current token
appended. -/
theorem C3_insert_sequence_eq_specCalls (m : Markov) (ws : List String) :
    m.insert_sequence ws =
      (specCalls ws).foldlM (fun mm c => mm.insert c.1 c.2) m :=
  insertSeqGo_eq_foldlM ws m Word.Start Word.Start

/-- Claim C2 counterexample: the stored mapping `{"a" -> 0, "b" -> 5}` is
non-empty and contains a non-positive weight, so the claim says rebuilding the
entry must fail; the code succeeds (rand's `WeightedIndex::new` only rejects an
empty or all-zero weight set). -/
theorem C2_counterexample_zero_weight_ok :
    entryTryFrom [(Word.Word "a", 0), (Word.Word "b", 5)] =
      .ok ⟨[(Word.Word "a", 0), (Word.Word "b", 5)], ⟨[0, 5]⟩⟩ := by
  rfl

/-- Claim C2 (amended): deserializing a stored entry (rebuilding an Entry from a
Token-to-count mapping) fails with a recoverable data-corruption error exactly
when the mapping is empty or all of its weights are zero (zero total weight);
for every mapping with at least one positive weight it succeeds. -/
theorem C2_entryTryFrom_error_iff (map : List (Word × Nat)) :
    (∃ err, entryTryFrom map = .error err) ↔ (map = [] ∨ ∀ p ∈ map, p.2 = 0) := by
  cases map with
  | nil =>
    constructor
    · intro _; exact Or.inl rfl
    · intro _; exact ⟨.NoItem, rfl⟩
  | cons q rest =>
    constructor
    · rintro ⟨err, herr⟩
      right
      by_cases hs : ((q :: rest).map Prod.snd).sum = 0
      · intro p hp
        have hall : ∀ x ∈ (q :: rest).map Prod.snd, x = 0 :=
          List.sum_eq_zero_iff.mp hs
        exact hall p.2 (List.mem_map_of_mem Prod.snd hp)
      · exfalso
        simp only [List.map_cons, List.sum_cons] at hs
        simp [entryTryFrom, WeightedIndex.new, hs] at herr
    · rintro (h | h)
      · cases h
      · refine ⟨.AllWeightsZero, ?_⟩
        have hs : ((q :: rest).map Prod.snd).sum = 0 := by
          rw [List.sum_eq_zero_iff]
          intro x hx
          obtain ⟨p, hp, rfl⟩ := List.mem_map.mp hx
          exact h p hp
        simp only [List.map_cons, List.sum_cons] at hs
        simp [entryTryFrom, WeightedIndex.new, hs]

/-- Claim C1, evaluated at the failing input: training the empty table on the
single one-word sequence `["a"]` succeeds, but `clean()` then hits a fatal
failure (the `.unwrap()` of `gen_new_weights()` on the emptied
`(Start, Start)` entry, every start successor having weight <= 1) instead of
returning the number of removed contexts. -/
theorem C1_clean_panics_after_one_sequence :
    ∃ m, Markov.new.insert_sequence ["a"] = .ok m ∧ m.clean = .error () :=
  ⟨_, rfl, rfl⟩

theorem WeightedIndex.new_ok {ws : List Nat} (hne : ws ≠ []) (hs : ws.sum ≠ 0) :
    WeightedIndex.new ws = .ok ⟨ws⟩ := by
  cases ws with
  | nil => exact absurd rfl hne
  | cons a l => simp only [WeightedIndex.new, if_neg hs]

theorem WeightedIndex.update_weights_ok {d : WeightedIndex} {i w : Nat}
    (hi : i < d.weights.length) (hs : (d.weights.set i w).sum ≠ 0) :
    d.update_weights i w = .ok ⟨d.weights.set i w⟩ := by
  simp only [WeightedIndex.update_weights, if_pos hi, if_neg hs]

theorem scanBump_spec {w : Word} {l l1 : List (Word × Nat)} {i n : Nat}
    (h : scanBump w l = some (l1, i, n)) :
    l1.map Prod.fst = l.map Prod.fst ∧
    l1.map Prod.snd = (l.map Prod.snd).set i n ∧
    i < l.length ∧ 0 < n ∧
    (l1.map Prod.snd).sum = (l.map Prod.snd).sum + 1 := by
  induction l generalizing l1 i n with
  | nil => simp [scanBump] at h
  | cons a l ih =>
    obtain ⟨word, weight⟩ := a
    by_cases hw : word = w
    · simp only [scanBump, if_pos hw, Option.some.injEq, Prod.mk.injEq] at h
      obtain ⟨h1, h2, h3⟩ := h
      subst h1; subst h2; subst h3
      refine ⟨by simp, by simp [List.set], by simp, by omega, ?_⟩
      simp only [List.map_cons, List.sum_cons]
      omega
    · simp only [scanBump, if_neg hw] at h
      cases hsb : scanBump w l with
      | none => rw [hsb] at h; cases h
      | some t =>
        obtain ⟨rest1, j, nn⟩ := t
        rw [hsb] at h
        simp only [Option.some.injEq, Prod.mk.injEq] at h
        obtain ⟨h1, h2, h3⟩ := h
        subst h1; subst h2; subst h3
        obtain ⟨ih1, ih2, ih3, ih4, ih5⟩ := ih hsb
        refine ⟨?_, ?_, ?_, ih4, ?_⟩
        · simp only [List.map_cons]; rw [ih1]
        · simp only [List.map_cons, List.set]; rw [ih2]
        · simp only [List.length_cons]; omega
        · simp only [List.map_cons, List.sum_cons]; omega

theorem entry_insert_spec {e : Entry} (hwf : e.wf) (w : Word) :
    ∃ e1, e.insert w = .ok e1 ∧ e1.wf ∧ entryMass e1 = entryMass e + 1 ∧
      (e1.weight_pairs.map Prod.fst = e.weight_pairs.map Prod.fst ∨
        e1.weight_pairs.map Prod.fst = e.weight_pairs.map Prod.fst ++ [w]) := by
  obtain ⟨hdist, hpos⟩ := hwf
  cases hsb : scanBump w e.weight_pairs with
  | some t =>
    obtain ⟨l1, i, n⟩ := t
    obtain ⟨hfst, hsnd, hlen, hn, hsum⟩ := scanBump_spec hsb
    have hi : i < e.dist.weights.length := by
      rw [hdist, List.length_map]; exact hlen
    have hset : e.dist.weights.set i n = l1.map Prod.snd := by
      rw [hdist, hsnd]
    have hs : (e.dist.weights.set i n).sum ≠ 0 := by
      rw [hset, hsum]; omega
    refine ⟨⟨l1, ⟨e.dist.weights.set i n⟩⟩, ?_, ?_, ?_, Or.inl hfst⟩
    · simp only [Entry.insert, hsb, WeightedIndex.update_weights_ok hi hs]
    · exact ⟨by simpa using hset, by simp only [entryMass] at hpos ⊢; omega⟩
    · simp only [entryMass, hsum]
  | none =>
    have hne : (e.weight_pairs ++ [(w, 1)]).map Prod.snd ≠ [] := by
      simp
    have hs : ((e.weight_pairs ++ [(w, 1)]).map Prod.snd).sum ≠ 0 := by
      simp
    refine ⟨⟨e.weight_pairs ++ [(w, 1)], ⟨(e.weight_pairs ++ [(w, 1)]).map Prod.snd⟩⟩,
      ?_, ?_, ?_, Or.inr (by simp)⟩
    · simp only [Entry.insert, hsb, WeightedIndex.new_ok hne hs]
    · refine ⟨rfl, ?_⟩
      simp only [List.map_append, List.sum_append]
      simp
    · simp only [entryMass, List.map_append, List.sum_append]
      simp

theorem entry_new_wf (w : Word) : (Entry.new w).wf :=
  ⟨rfl, by simp [Entry.new]⟩

theorem entry_new_mass (w : Word) : entryMass (Entry.new w) = 1 := rfl

theorem upsert_vacant {es : List (WordArray × Entry)} {k : WordArray} (w : Word)
    (h : alookup k es = none) :
    upsertEntries k w es = .ok (es ++ [(k, Entry.new w)]) := by
  induction es with
  | nil => rfl
  | cons p rest ih =>
    simp only [alookup] at h
    by_cases hp : p.1 = k
    · rw [if_pos hp] at h; cases h
    · rw [if_neg hp] at h
      simp only [upsertEntries, if_neg hp, ih h]
      rfl

theorem alookup_append_right {es : List (WordArray × Entry)} {k : WordArray}
    (h : alookup k es = none) (tl : List (WordArray × Entry)) :
    alookup k (es ++ tl) = alookup k tl := by
  induction es with
  | nil => rfl
  | cons p rest ih =>
    simp only [alookup] at h
    by_cases hp : p.1 = k
    · rw [if_pos hp] at h; cases h
    · rw [if_neg hp] at h
      show alookup k (p :: (rest ++ tl)) = alookup k tl
      simp only [alookup, if_neg hp]
      exact ih h

theorem upsert_occupied {es : List (WordArray × Entry)} {k : WordArray} {w : Word}
    {e e1 : Entry} (h : alookup k es = some e) (h1 : e.insert w = .ok e1) :
    ∃ es1, upsertEntries k w es = .ok es1 ∧
      alookup k es1 = some e1 ∧
      (∀ k2, k2 ≠ k → alookup k2 es1 = alookup k2 es) ∧
      es1.map Prod.fst = es.map Prod.fst ∧
      (∀ p ∈ es1, p ∈ es ∨ p = (k, e1)) := by
  induction es with
  | nil => simp [alookup] at h
  | cons p rest ih =>
    by_cases hp : p.1 = k
    · subst hp
      simp only [alookup, if_true, eq_self_iff_true, Option.some.injEq] at h
      obtain rfl : p.2 = e := h
      refine ⟨(p.1, e1) :: rest, ?_, ?_, ?_, ?_, ?_⟩
      · simp only [upsertEntries, if_pos rfl, h1]
        rfl
      · simp [alookup]
      · intro k2 hk2
        have hne : ¬ p.1 = k2 := fun hh => hk2 hh.symm
        simp only [alookup, if_neg hne]
      · simp
      · intro q hq
        rcases List.mem_cons.mp hq with rfl | hq2
        · exact Or.inr rfl
        · exact Or.inl (List.mem_cons_of_mem _ hq2)
    · simp only [alookup, if_neg hp] at h
      obtain ⟨es1, hu, hl, hothers, hkeys, hmem⟩ := ih h
      refine ⟨p :: es1, ?_, ?_, ?_, ?_, ?_⟩
      · simp only [upsertEntries, if_neg hp, hu]
        rfl
      · simp only [alookup, if_neg hp, hl]
      · intro k2 hk2
        by_cases hp2 : p.1 = k2
        · simp only [alookup, if_pos hp2]
        · simp only [alookup, if_neg hp2, hothers k2 hk2]
      · simp only [List.map_cons, hkeys]
      · intro q hq
        rcases List.mem_cons.mp hq with rfl | hq2
        · exact Or.inl (List.mem_cons_self _ _)
        · rcases hmem q hq2 with hin | hrep
          · exact Or.inl (List.mem_cons_of_mem _ hin)
          · exact Or.inr hrep

theorem alookup_append_self {es : List (WordArray × Entry)} {k : WordArray}
    (h : alookup k es = none) (e : Entry) :
    alookup k (es ++ [(k, e)]) = some e := by
  rw [alookup_append_right h]
  simp [alookup]

theorem foldl_insert_mass (ws : List Word) :
    ∀ (m : Markov) (k : WordArray) (e : Entry),
      alookup k m.entries = some e → e.wf →
      ∃ m1, ws.foldlM (fun mm w => mm.insert k w) m = .ok m1 ∧
        ∃ e1, alookup k m1.entries = some e1 ∧ e1.wf ∧
          entryMass e1 = entryMass e + ws.length := by
  induction ws with
  | nil =>
    intro m k e hl hwf
    exact ⟨m, rfl, e, hl, hwf, rfl⟩
  | cons w rest ih =>
    intro m k e hl hwf
    obtain ⟨e1, hins, hwf1, hmass1, _⟩ := entry_insert_spec hwf w
    obtain ⟨es1, hu, hl1, _, _, _⟩ := upsert_occupied hl hins
    have hstep : m.insert k w = .ok ⟨es1⟩ := by
      simp only [Markov.insert, hu]
      rfl
    obtain ⟨m1, hfold, e2, hl2, hwf2, hmass2⟩ := ih ⟨es1⟩ k e1 hl1 hwf1
    refine ⟨m1, ?_, e2, hl2, hwf2, ?_⟩
    · show ((m.insert k w) >>= fun mm =>
        rest.foldlM (fun mm w => mm.insert k w) mm) = .ok m1
      rw [hstep, except_bind_ok, hfold]
    · rw [hmass2, hmass1, List.length_cons]
      omega

theorem scanBump_set {w : Word} {l l1 : List (Word × Nat)} {i n : Nat}
    (h : scanBump w l = some (l1, i, n)) :
    ∃ x, l[i]? = some (w, x) ∧ n = x + 1 ∧ l1 = l.set i (w, x + 1) := by
  induction l generalizing l1 i n with
  | nil => simp [scanBump] at h
  | cons a l ih =>
    obtain ⟨word, weight⟩ := a
    by_cases hw : word = w
    · simp only [scanBump, if_pos hw, Option.some.injEq, Prod.mk.injEq] at h
      obtain ⟨h1, h2, h3⟩ := h
      subst h1; subst h2; subst h3
      subst hw
      exact ⟨weight, by simp, rfl, rfl⟩
    · simp only [scanBump, if_neg hw] at h
      cases hsb : scanBump w l with
      | none => rw [hsb] at h; cases h
      | some t =>
        obtain ⟨rest1, j, nn⟩ := t
        rw [hsb] at h
        simp only [Option.some.injEq, Prod.mk.injEq] at h
        obtain ⟨h1, h2, h3⟩ := h
        subst h1; subst h2; subst h3
        obtain ⟨x, hget, hn, hset⟩ := ih hsb
        refine ⟨x, by simpa using hget, hn, ?_⟩
        simp only [List.set]
        rw [← hset]

theorem entry_insert_ok_shape {e e1 : Entry} {w : Word} (h : e.insert w = .ok e1) :
    (∃ i x, e.weight_pairs[i]? = some (w, x) ∧
      e1.weight_pairs = e.weight_pairs.set i (w, x + 1)) ∨
    e1.weight_pairs = e.weight_pairs ++ [(w, 1)] := by
  unfold Entry.insert at h
  split at h
  next l1 i n hsb =>
    split at h
    next d hu =>
      obtain rfl : Entry.mk l1 d = e1 := by injection h
      obtain ⟨x, hget, hn, hset⟩ := scanBump_set hsb
      exact Or.inl ⟨i, x, hget, by rw [← hn] at hset ⊢; exact hset⟩
    next err hu => cases h
  next hsb =>
    split at h
    next d hn =>
      obtain rfl : Entry.mk (e.weight_pairs ++ [(w, 1)]) d = e1 := by injection h
      exact Or.inr rfl
    next err hn => cases h

/-- Claim C6: starting from a table in which the context `k` is absent, after
any non-empty sequence of insert calls targeting `k` the fold of
`Markov.insert` succeeds and the total weight mass of the entry now stored at
`k` equals the number of insert calls. The mechanism is exactly as described:
the entry is created by `Entry::new` with the single pair `(w, 1)`, and every
further successful `Entry::insert` adds exactly 1 to the mass, either bumping
exactly one existing pair's weight by 1 or appending one new pair at weight 1,
so the mass never decreases outside pruning. -/
theorem C6_weight_mass_eq_insert_count :
    (∀ w : Word, (Entry.new w).weight_pairs = [(w, 1)]) ∧
    (∀ (e e1 : Entry) (w : Word), e.wf → e.insert w = .ok e1 →
      entryMass e1 = entryMass e + 1 ∧
      ((∃ i x, e.weight_pairs[i]? = some (w, x) ∧
        e1.weight_pairs = e.weight_pairs.set i (w, x + 1)) ∨
       e1.weight_pairs = e.weight_pairs ++ [(w, 1)])) ∧
    (∀ (m : Markov) (k : WordArray), alookup k m.entries = none →
      ∀ ws : List Word, ws ≠ [] →
      ∃ m1, ws.foldlM (fun mm w => mm.insert k w) m = .ok m1 ∧
        ∃ e, alookup k m1.entries = some e ∧ entryMass e = ws.length) := by
  refine ⟨fun w => rfl, ?_, ?_⟩
  · intro e e1 w hwf hok
    refine ⟨?_, entry_insert_ok_shape hok⟩
    obtain ⟨e2, h2, _, hmass2, _⟩ := entry_insert_spec hwf w
    rw [hok] at h2
    obtain rfl : e1 = e2 := by injection h2
    exact hmass2
  intro m k h ws hne
  cases ws with
  | nil => exact absurd rfl hne
  | cons w rest =>
    have hstep : m.insert k w = .ok ⟨m.entries ++ [(k, Entry.new w)]⟩ := by
      simp only [Markov.insert, upsert_vacant w h]
      rfl
    have hl1 : alookup k (m.entries ++ [(k, Entry.new w)]) = some (Entry.new w) :=
      alookup_append_self h (Entry.new w)
    obtain ⟨m1, hfold, e1, hl2, _, hmass⟩ :=
      foldl_insert_mass rest ⟨m.entries ++ [(k, Entry.new w)]⟩ k (Entry.new w) hl1
        (entry_new_wf w)
    refine ⟨m1, ?_, e1, hl2, ?_⟩
    · show ((m.insert k w) >>= fun mm =>
        rest.foldlM (fun mm w => mm.insert k w) mm) = .ok m1
      rw [hstep, except_bind_ok, hfold]
    · rw [hmass, entry_new_mass, List.length_cons]
      omega

/-- Witness for C6 at a concrete input: three inserts into the initially absent
`(Start, Start)` context of the empty table give mass 3. -/
theorem C6_weight_mass_witness :
    ∃ m1, ([Word.Word "a", Word.Word "a", Word.Word "b"].foldlM
        (fun mm w => mm.insert START_WORDS w) Markov.new) = .ok m1 ∧
      ∃ e, alookup START_WORDS m1.entries = some e ∧ entryMass e = 3 :=
  C6_weight_mass_eq_insert_count.2.2 Markov.new START_WORDS rfl
    [Word.Word "a", Word.Word "a", Word.Word "b"] (by decide)

theorem alookup_mem {es : List (WordArray × Entry)} {k : WordArray} {e : Entry}
    (h : alookup k es = some e) : (k, e) ∈ es := by
  induction es with
  | nil => cases h
  | cons p rest ih =>
    simp only [alookup] at h
    by_cases hp : p.1 = k
    · rw [if_pos hp] at h
      obtain rfl : p.2 = e := by injection h
      subst hp
      exact List.mem_cons_self _ _
    · rw [if_neg hp] at h
      exact List.mem_cons_of_mem _ (ih h)

theorem entry_insert_ok_words {e e1 : Entry} {w : Word} (h : e.insert w = .ok e1) :
    e1.weight_pairs.map Prod.fst = e.weight_pairs.map Prod.fst ∨
    e1.weight_pairs.map Prod.fst = e.weight_pairs.map Prod.fst ++ [w] := by
  unfold Entry.insert at h
  split at h
  next l1 i n hsb =>
    split at h
    next d hu =>
      obtain rfl : Entry.mk l1 d = e1 := by injection h
      exact Or.inl (scanBump_spec hsb).1
    next err hu => cases h
  next hsb =>
    split at h
    next d hn =>
      obtain rfl : Entry.mk (e.weight_pairs ++ [(w, 1)]) d = e1 := by injection h
      exact Or.inr (by simp)
    next err hn => cases h

theorem entry_insert_ok_wf {e e1 : Entry} {w : Word} (hwf : e.wf)
    (h : e.insert w = .ok e1) : e1.wf := by
  obtain ⟨e2, h2, hwf2, _, _⟩ := entry_insert_spec hwf w
  rw [h] at h2
  obtain rfl : e1 = e2 := by injection h2
  exact hwf2

theorem upsert_ok_mem {es es1 : List (WordArray × Entry)} {k : WordArray} {w : Word}
    (h : upsertEntries k w es = .ok es1) :
    ∀ p ∈ es1, p ∈ es ∨
      (p.1 = k ∧ (p.2 = Entry.new w ∨
        ∃ e0, (k, e0) ∈ es ∧ e0.insert w = .ok p.2)) := by
  induction es generalizing es1 with
  | nil =>
    obtain rfl : [(k, Entry.new w)] = es1 := by injection h
    intro p hp
    rcases List.mem_cons.mp hp with rfl | hq
    · exact Or.inr ⟨rfl, Or.inl rfl⟩
    · cases hq
  | cons p0 rest ih =>
    simp only [upsertEntries] at h
    by_cases hp0 : p0.1 = k
    · rw [if_pos hp0] at h
      cases hins : p0.2.insert w with
      | error err => rw [hins] at h; cases h
      | ok e1 =>
        rw [hins] at h
        obtain rfl : (p0.1, e1) :: rest = es1 := by injection h
        intro p hp
        rcases List.mem_cons.mp hp with rfl | hq
        · exact Or.inr ⟨hp0, Or.inr ⟨p0.2, by rw [← hp0]; exact ⟨List.mem_cons_self _ _, hins⟩⟩⟩
        · exact Or.inl (List.mem_cons_of_mem _ hq)
    · rw [if_neg hp0] at h
      cases hrec : upsertEntries k w rest with
      | error err => rw [hrec] at h; cases h
      | ok es2 =>
        rw [hrec] at h
        obtain rfl : p0 :: es2 = es1 := by injection h
        intro p hp
        rcases List.mem_cons.mp hp with rfl | hq
        · exact Or.inl (List.mem_cons_self _ _)
        · rcases ih hrec p hq with hin | ⟨hk, hrest⟩
          · exact Or.inl (List.mem_cons_of_mem _ hin)
          · refine Or.inr ⟨hk, ?_⟩
            rcases hrest with hnew | ⟨e0, he0, hi0⟩
            · exact Or.inl hnew
            · exact Or.inr ⟨e0, List.mem_cons_of_mem _ he0, hi0⟩

theorem upsert_ok_keys {es es1 : List (WordArray × Entry)} {k : WordArray} {w : Word}
    (h : upsertEntries k w es = .ok es1) :
    es1.map Prod.fst = es.map Prod.fst ∨
    es1.map Prod.fst = es.map Prod.fst ++ [k] := by
  induction es generalizing es1 with
  | nil =>
    obtain rfl : [(k, Entry.new w)] = es1 := by injection h
    exact Or.inr (by simp)
  | cons p0 rest ih =>
    simp only [upsertEntries] at h
    by_cases hp0 : p0.1 = k
    · rw [if_pos hp0] at h
      cases hins : p0.2.insert w with
      | error err => rw [hins] at h; cases h
      | ok e1 =>
        rw [hins] at h
        obtain rfl : (p0.1, e1) :: rest = es1 := by injection h
        exact Or.inl (by simp)
    · rw [if_neg hp0] at h
      cases hrec : upsertEntries k w rest with
      | error err => rw [hrec] at h; cases h
      | ok es2 =>
        rw [hrec] at h
        obtain rfl : p0 :: es2 = es1 := by injection h
        rcases ih hrec with h1 | h1
        · exact Or.inl (by simp [h1])
        · exact Or.inr (by simp [h1])

theorem insert_preserves_inv {m m1 : Markov} {k : WordArray} {w : Word}
    (h : m.insert k w = .ok m1) (hinv : TableInv m.entries)
    (hw : w ≠ Word.Start) (hk1 : k.1 ≠ Word.End) (hk2 : k.2 ≠ Word.End)
    (hks : k.2 = Word.Start → k = START_WORDS) :
    TableInv m1.entries := by
  obtain ⟨hns, hnec, hsto, hwf⟩ := hinv
  have hup : upsertEntries k w m.entries = .ok m1.entries := by
    unfold Markov.insert at h
    cases hu : upsertEntries k w m.entries with
    | error err => rw [hu] at h; cases h
    | ok es1 =>
      rw [hu] at h
      obtain rfl : Markov.mk es1 = m1 := by injection h
      rfl
  have hmem := upsert_ok_mem hup
  refine ⟨?_, ?_, ?_, ?_⟩
  · intro p hp q hq
    rcases hmem p hp with hin | ⟨hpk, hrest⟩
    · exact hns p hin q hq
    · rcases hrest with hnew | ⟨e0, he0, hi0⟩
      · rw [hnew] at hq
        rcases List.mem_cons.mp hq with rfl | hq2
        · exact hw
        · cases hq2
      · rcases entry_insert_ok_words hi0 with hwords | hwords
        · have : q.1 ∈ p.2.weight_pairs.map Prod.fst := List.mem_map_of_mem Prod.fst hq
          rw [hwords] at this
          obtain ⟨q0, hq0, hq0e⟩ := List.mem_map.mp this
          intro hstart
          exact hns _ he0 q0 hq0 (by rw [hq0e, hstart])
        · have : q.1 ∈ p.2.weight_pairs.map Prod.fst := List.mem_map_of_mem Prod.fst hq
          rw [hwords] at this
          rcases List.mem_append.mp this with hl | hr
          · obtain ⟨q0, hq0, hq0e⟩ := List.mem_map.mp hl
            intro hstart
            exact hns _ he0 q0 hq0 (by rw [hq0e, hstart])
          · rcases List.mem_singleton.mp hr with rfl
            exact hw
  · intro p hp
    rcases hmem p hp with hin | ⟨hpk, _⟩
    · exact hnec p hin
    · rw [hpk]; exact ⟨hk1, hk2⟩
  · intro p hp hpe
    rcases hmem p hp with hin | ⟨hpk, _⟩
    · exact hsto p hin hpe
    · rw [hpk] at hpe ⊢
      exact hks hpe
  · intro p hp
    rcases hmem p hp with hin | ⟨hpk, hrest⟩
    · exact hwf p hin
    · rcases hrest with hnew | ⟨e0, he0, hi0⟩
      · rw [hnew]; exact entry_new_wf w
      · exact entry_insert_ok_wf (hwf (k, e0) he0) hi0

theorem insertSeqGo_preserves_inv (ws : List String) :
    ∀ (m m1 : Markov) (p0 p1 : Word),
      insertSeqGo m p0 p1 ws = .ok m1 →
      p0 ≠ Word.End → p1 ≠ Word.End → (p1 = Word.Start → p0 = Word.Start) →
      TableInv m.entries → TableInv m1.entries := by
  induction ws with
  | nil =>
    intro m m1 p0 p1 h h0 h1 hs hinv
    exact insert_preserves_inv h hinv (by intro hh; cases hh) h0 h1
      (fun hh => by
        have hh2 : p1 = Word.Start := hh
        rw [hs hh2, hh2]
        rfl)
  | cons c rest ih =>
    intro m m1 p0 p1 h h0 h1 hs hinv
    have hbind : (m.insert (p0, p1) (Word.Word c) >>=
        fun mm => insertSeqGo mm p1 (Word.Word c) rest) = .ok m1 := h
    cases hstep : m.insert (p0, p1) (Word.Word c) with
    | error e => rw [hstep, except_bind_error] at hbind; cases hbind
    | ok mm =>
      rw [hstep, except_bind_ok] at hbind
      have hmm : TableInv mm.entries :=
        insert_preserves_inv hstep hinv (by intro hh; cases hh) h0 h1
          (fun hh => by
        have hh2 : p1 = Word.Start := hh
        rw [hs hh2, hh2]
        rfl)
      exact ih mm m1 p1 (Word.Word c) hbind h1 (by intro hh; cases hh)
        (by intro hh; cases hh) hmm

theorem weightedIndex_new_ok_elim {ws : List Nat} {d : WeightedIndex}
    (h : WeightedIndex.new ws = .ok d) :
    d = ⟨ws⟩ ∧ ws ≠ [] ∧ ws.sum ≠ 0 := by
  cases ws with
  | nil => cases h
  | cons a l =>
    by_cases hs : (a :: l).sum = 0
    · have h2 : WeightedIndex.new (a :: l) = .error .AllWeightsZero := by
        show (if (a :: l).sum = 0 then (Except.error .AllWeightsZero :
          Except WeightedError WeightedIndex) else .ok ⟨a :: l⟩) = _
        rw [if_pos hs]
      rw [h2] at h
      cases h
    · rw [WeightedIndex.new_ok (by simp) hs] at h
      obtain rfl : WeightedIndex.mk (a :: l) = d := by injection h
      exact ⟨rfl, by simp, hs⟩

theorem setEntry_mem {es : List (WordArray × Entry)} {k : WordArray} {e : Entry} :
    ∀ p ∈ setEntry es k e, p ∈ es ∨ p = (k, e) := by
  intro p hp
  obtain ⟨q, hq, hqe⟩ := List.mem_map.mp hp
  by_cases hqk : q.1 = k
  · rw [if_pos hqk] at hqe
    exact Or.inr hqe.symm
  · rw [if_neg hqk] at hqe
    exact Or.inl (hqe ▸ hq)

theorem foldl_filter_mem (l : List Word) :
    ∀ (es : List (WordArray × Entry)) p,
      p ∈ l.foldl (fun es k => es.filter (fun q => decide (q.1 ≠ (Word.Start, k)))) es →
      p ∈ es := by
  induction l with
  | nil => intro es p hp; exact hp
  | cons a l ih =>
    intro es p hp
    have := ih _ p hp
    exact List.mem_of_mem_filter this

theorem cleanPhase1_mem {m m1 : Markov} (h : m.cleanPhase1 = .ok m1) :
    ∀ p ∈ m1.entries, p ∈ m.entries ∨
      (p.1 = START_WORDS ∧ ∃ e0, alookup START_WORDS m.entries = some e0 ∧
        p.2.weight_pairs = e0.weight_pairs.filter (fun q => decide (1 < q.2)) ∧
        p.2.wf) := by
  unfold Markov.cleanPhase1 at h
  split at h
  next hl =>
    obtain rfl : m = m1 := by injection h
    intro p hp
    exact Or.inl hp
  next start hl =>
    split at h
    next err hn => cases h
    next d hn =>
      obtain ⟨hd, hne, hs⟩ := weightedIndex_new_ok_elim hn
      obtain rfl :
          Markov.mk (((start.weight_pairs.filter (fun q => decide (q.2 ≤ 1))).map
            Prod.fst).foldl
              (fun es k => es.filter (fun q => decide (q.1 ≠ (Word.Start, k))))
              (setEntry m.entries START_WORDS
                ⟨start.weight_pairs.filter (fun q => decide (1 < q.2)), d⟩)) = m1 := by
        injection h
      intro p hp
      have hp2 := foldl_filter_mem _ _ p hp
      rcases setEntry_mem p hp2 with hin | hrep
      · exact Or.inl hin
      · refine Or.inr ⟨(by rw [hrep]), start, hl, (by rw [hrep]), ?_⟩
        rw [hrep]
        refine ⟨?_, ?_⟩
        · show d.weights =
            (start.weight_pairs.filter (fun q => decide (1 < q.2))).map Prod.snd
          rw [hd]
        · show 0 <
            ((start.weight_pairs.filter (fun q => decide (1 < q.2))).map Prod.snd).sum
          exact Nat.pos_of_ne_zero hs

theorem clean_ok_elim {m m2 : Markov} {n : Nat} (h : m.clean = .ok (m2, n)) :
    ∃ m1, m.cleanPhase1 = .ok m1 ∧
      m2.entries = m1.entries.filter
        (fun p => decide (p.1 ∈ cleanVisit m1.entries [] [START_WORDS])) ∧
      n = m.entries.length - m2.entries.length := by
  unfold Markov.clean at h
  cases hp : m.cleanPhase1 with
  | error e => rw [hp, except_bind_error] at h; cases h
  | ok m1 =>
    rw [hp, except_bind_ok] at h
    injection h with h2
    have hm : Markov.mk (m1.entries.filter
        (fun p => decide (p.1 ∈ cleanVisit m1.entries [] [START_WORDS]))) = m2 :=
      congrArg Prod.fst h2
    have hn : m.entries.length - (m1.entries.filter
        (fun p => decide (p.1 ∈ cleanVisit m1.entries [] [START_WORDS]))).length = n :=
      congrArg Prod.snd h2
    refine ⟨m1, rfl, ?_, ?_⟩
    · rw [← hm]
    · rw [← hn, ← hm]

theorem clean_preserves_inv {m m2 : Markov} {n : Nat} (h : m.clean = .ok (m2, n))
    (hinv : TableInv m.entries) : TableInv m2.entries := by
  obtain ⟨hns, hnec, hsto, hwf⟩ := hinv
  obtain ⟨m1, hp1, hm2, _⟩ := clean_ok_elim h
  have hmem1 := cleanPhase1_mem hp1
  have hmem2 : ∀ p ∈ m2.entries, p ∈ m1.entries := by
    intro p hp
    rw [hm2] at hp
    exact List.mem_of_mem_filter hp
  refine ⟨?_, ?_, ?_, ?_⟩
  · intro p hp q hq
    rcases hmem1 p (hmem2 p hp) with hin | ⟨hpk, e0, hl0, hpf, _⟩
    · exact hns p hin q hq
    · rw [hpf] at hq
      exact hns _ (alookup_mem hl0) q (List.mem_of_mem_filter hq)
  · intro p hp
    rcases hmem1 p (hmem2 p hp) with hin | ⟨hpk, _⟩
    · exact hnec p hin
    · rw [hpk]
      exact ⟨(by intro hh; cases hh), (by intro hh; cases hh)⟩
  · intro p hp hpe
    rcases hmem1 p (hmem2 p hp) with hin | ⟨hpk, _⟩
    · exact hsto p hin hpe
    · exact hpk
  · intro p hp
    rcases hmem1 p (hmem2 p hp) with hin | ⟨_, _, _, _, hwfp⟩
    · exact hwf p hin
    · exact hwfp

theorem built_table_inv {m : Markov} (h : Built m) : TableInv m.entries := by
  induction h with
  | empty =>
    refine ⟨?_, ?_, ?_, ?_⟩ <;> intro p hp <;> cases hp
  | insert_seq hb hstep ih =>
    exact insertSeqGo_preserves_inv _ _ _ _ _ hstep (by intro hh; cases hh)
      (by intro hh; cases hh) (fun _ => rfl) ih
  | cleaned hb hstep ih =>
    exact clean_preserves_inv hstep ih

theorem builtI_built {m : Markov} (h : BuiltI m) : Built m := by
  induction h with
  | empty => exact Built.empty
  | insert_seq hb hstep ih => exact Built.insert_seq ih hstep

/-- Claim C8: for every table reachable from the empty table by any sequence of
`insert_sequence` and `clean` operations, `Start` never occurs as a successor
token in any entry's weight pairs, `End` never occurs as an element of any
context key, and the only context key with a trailing `Start` sentinel is
`(Start, Start)` itself. -/
theorem C8_sentinel_invariants (m : Markov) (h : Built m) :
    NoStartSucc m.entries ∧ NoEndCtx m.entries ∧ StartTrailOnly m.entries := by
  obtain ⟨h1, h2, h3, _⟩ := built_table_inv h
  exact ⟨h1, h2, h3⟩

/-- Witness for C8 at a concrete input: the table built from the sentences
"the cat" and "the dog" satisfies the three sentinel invariants. -/
theorem C8_sentinel_witness :
    ∃ m m2, Markov.new.insert_sequence ["the", "cat"] = .ok m ∧
      m.insert_sequence ["the", "dog"] = .ok m2 ∧
      (NoStartSucc m2.entries ∧ NoEndCtx m2.entries ∧ StartTrailOnly m2.entries) :=
  ⟨_, _, rfl, rfl,
    C8_sentinel_invariants _
      (@Built.insert_seq _ _ ["the", "dog"]
        (@Built.insert_seq Markov.new _ ["the", "cat"] Built.empty rfl) rfl)⟩

theorem cumIdx_spec {l : List Nat} {x : Nat} (hx : x < l.sum) :
    cumIdx l x < l.length ∧ ∃ wgt, l[cumIdx l x]? = some wgt ∧ 0 < wgt := by
  induction l generalizing x with
  | nil => simp at hx
  | cons w rest ih =>
    by_cases hxw : x < w
    · refine ⟨by simp [cumIdx, hxw], w, ?_, by omega⟩
      simp [cumIdx, hxw]
    · have hx2 : x - w < rest.sum := by
        simp only [List.sum_cons] at hx
        omega
      obtain ⟨hlt, wgt, hget, hwgt⟩ := ih hx2
      refine ⟨?_, wgt, ?_, hwgt⟩
      · simp only [cumIdx, if_neg hxw, List.length_cons]
        omega
      · simp only [cumIdx, if_neg hxw, List.getElem?_cons_succ]
        exact hget

theorem entry_get_random_spec {e : Entry} (hwf : e.wf) (r : Nat) :
    ∃ w weight, (w, weight) ∈ e.weight_pairs ∧ 0 < weight ∧
      e.get_random r = .ok w := by
  obtain ⟨hdist, hpos⟩ := hwf
  have hsumpos : 0 < e.dist.weights.sum := by rw [hdist]; exact hpos
  have hx : r % e.dist.weights.sum < e.dist.weights.sum := Nat.mod_lt _ hsumpos
  obtain ⟨hlt, wgt, hget, hwgt⟩ := cumIdx_spec hx
  have hsample : e.dist.sample r = cumIdx e.dist.weights (r % e.dist.weights.sum) := rfl
  have hlen : e.dist.weights.length = e.weight_pairs.length := by
    rw [hdist, List.length_map]
  have hplt : e.dist.sample r < e.weight_pairs.length := by
    rw [hsample, ← hlen]
    exact hlt
  have hp : e.weight_pairs[e.dist.sample r]? =
      some (e.weight_pairs.get ⟨e.dist.sample r, hplt⟩) := by
    rw [List.getElem?_eq_getElem hplt]
    rfl
  have hsnd : (e.weight_pairs.map Prod.snd)[e.dist.sample r]? = some wgt := by
    rw [← hdist, hsample]
    exact hget
  rw [List.getElem?_map, hp] at hsnd
  have hsnd2 : (e.weight_pairs.get ⟨e.dist.sample r, hplt⟩).2 = wgt := by
    have h3 : some ((e.weight_pairs.get ⟨e.dist.sample r, hplt⟩).2) = some wgt := hsnd
    injection h3
  refine ⟨(e.weight_pairs.get ⟨e.dist.sample r, hplt⟩).1,
    (e.weight_pairs.get ⟨e.dist.sample r, hplt⟩).2, ?_, ?_, ?_⟩
  · have h4 := List.getElem?_mem hp
    rw [← Prod.mk.eta (p := e.weight_pairs.get ⟨e.dist.sample r, hplt⟩)] at h4
    exact h4
  · rw [hsnd2]
    exact hwgt
  · simp only [Entry.get_random, hp]

/-- Claim C7: each step of the chain generator behaves as described.
Part 1: when the current context is absent from the table, `next` yields
nothing and leaves the state unchanged (the walk has ended).
Part 2: when the current context holds a well-formed entry, `next` samples one
successor `w` of that entry (a pair actually stored with positive weight),
advances the context by dropping the oldest element and appending `w`, yields
the string when `w` is a `Word`, ends the walk when `w` is `End`, and panics
(`unreachable!`) when `w` is `Start`.
Part 3: on any table built through `insert_sequence` from the empty table, a
step never panics and the sampled token is never `Start`, so the generated
output never contains a `Start` token. -/
theorem C7_chain_step_behavior :
    (∀ ch : Chain, alookup ch.cur_words ch.entries = none → ch.next = .ok (none, ch)) ∧
    (∀ (ch : Chain) (e : Entry), alookup ch.cur_words ch.entries = some e → e.wf →
      ∃ w weight, (w, weight) ∈ e.weight_pairs ∧ 0 < weight ∧
        e.get_random (ch.rng.headD 0) = .ok w ∧
        ch.next = (match w with
          | .Word s => .ok (some s, ⟨ch.entries, (ch.cur_words.2, w), ch.rng.tail⟩)
          | .End => .ok (none, ⟨ch.entries, (ch.cur_words.2, w), ch.rng.tail⟩)
          | .Start => .error ())) ∧
    (∀ m : Markov, BuiltI m → ∀ ch : Chain, ch.entries = m.entries →
      ch.next ≠ .error () ∧
      (∀ (e : Entry) (w : Word), alookup ch.cur_words ch.entries = some e →
        e.get_random (ch.rng.headD 0) = .ok w → w ≠ Word.Start)) := by
  have hstep2 : ∀ (ch : Chain) (e : Entry),
      alookup ch.cur_words ch.entries = some e → e.wf →
      ∃ w weight, (w, weight) ∈ e.weight_pairs ∧ 0 < weight ∧
        e.get_random (ch.rng.headD 0) = .ok w ∧
        ch.next = (match w with
          | .Word s => .ok (some s, ⟨ch.entries, (ch.cur_words.2, w), ch.rng.tail⟩)
          | .End => .ok (none, ⟨ch.entries, (ch.cur_words.2, w), ch.rng.tail⟩)
          | .Start => .error ()) := by
    intro ch e hl hwf
    obtain ⟨w, weight, hmem, hwgt, hgr⟩ := entry_get_random_spec hwf (ch.rng.headD 0)
    refine ⟨w, weight, hmem, hwgt, hgr, ?_⟩
    simp only [Chain.next, hl, hgr]
  refine ⟨?_, hstep2, ?_⟩
  · intro ch h
    simp only [Chain.next, h]
  · intro m hm ch hch
    have hinv := built_table_inv (builtI_built hm)
    obtain ⟨hns, _, _, hwf⟩ := hinv
    have hnostart : ∀ (e : Entry) (w : Word), alookup ch.cur_words ch.entries = some e →
        e.get_random (ch.rng.headD 0) = .ok w → w ≠ Word.Start := by
      intro e w hl hgr
      rw [hch] at hl
      have hewf : e.wf := hwf _ (alookup_mem hl)
      obtain ⟨w2, weight, hmem, hwgt, hgr2⟩ := entry_get_random_spec hewf (ch.rng.headD 0)
      rw [hgr] at hgr2
      obtain rfl : w = w2 := by injection hgr2
      exact hns _ (alookup_mem hl) (w, weight) hmem
    refine ⟨?_, hnostart⟩
    cases hl : alookup ch.cur_words ch.entries with
    | none =>
      intro hcontra
      rw [Chain.next] at hcontra
      simp only [hl] at hcontra
      cases hcontra
    | some e =>
      have hewf : e.wf := by
        rw [hch] at hl
        exact hwf _ (alookup_mem hl)
      obtain ⟨w, weight, hmem, hwgt, hgr, hnext⟩ := hstep2 ch e hl hewf
      rw [hnext]
      cases w with
      | Start => exact absurd rfl (hnostart e Word.Start hl hgr)
      | End => intro hcontra; cases hcontra
      | Word s => intro hcontra; cases hcontra

/-- Witness for C7 at a concrete input: one step of a chain over the table
trained on the single word "hi" does not panic. -/
theorem C7_chain_step_witness :
    ∃ m, Markov.new.insert_sequence ["hi"] = .ok m ∧
      (Chain.mk m.entries START_WORDS [0]).next ≠ .error () :=
  ⟨_, rfl,
    (C7_chain_step_behavior.2.2 _
      (@BuiltI.insert_seq Markov.new _ ["hi"] BuiltI.empty rfl)
      (Chain.mk _ START_WORDS [0]) rfl).1⟩

theorem alookup_end_none {es : List (WordArray × Entry)}
    (h : ∀ p ∈ es, p.1.2 ≠ Word.End) (x : Word) :
    alookup (x, Word.End) es = none := by
  induction es with
  | nil => rfl
  | cons p rest ih =>
    simp only [alookup]
    rw [if_neg, ih (fun q hq => h q (List.mem_cons_of_mem _ hq))]
    intro hh
    exact h p (List.mem_cons_self _ _) (by rw [hh])

/-- Claim C10: the chain generator is fused on every table whose context keys
contain no `End` token (which part 1 shows holds for every table built through
`insert_sequence`): whenever a call to `next` returns nothing, the stored
context of the resulting state has `End` in trailing position or is absent from
the table, and `next` on that state again returns nothing with the state
unchanged, so every subsequent call also returns nothing. -/
theorem C10_chain_fused :
    (∀ m : Markov, BuiltI m → NoEndCtx m.entries) ∧
    (∀ ch ch' : Chain, NoEndCtx ch.entries → ch.next = .ok (none, ch') →
      ch'.entries = ch.entries ∧
      (ch'.cur_words.2 = Word.End ∨ alookup ch'.cur_words ch.entries = none) ∧
      ch'.next = .ok (none, ch')) := by
  constructor
  · intro m hm
    exact (built_table_inv (builtI_built hm)).2.1
  · intro ch ch' hnec hnext
    rw [Chain.next] at hnext
    cases hl : alookup ch.cur_words ch.entries with
    | none =>
      simp only [hl] at hnext
      obtain rfl : ch = ch' := by
        injection hnext with h2
        exact congrArg Prod.snd h2
      refine ⟨rfl, Or.inr hl, ?_⟩
      simp only [Chain.next, hl]
    | some e =>
      simp only [hl] at hnext
      cases hgr : e.get_random (ch.rng.headD 0) with
      | error err => rw [hgr] at hnext; cases hnext
      | ok w =>
        rw [hgr] at hnext
        cases w with
        | Start => cases hnext
        | Word s =>
          have : (some s : Option String) = none := by
            injection hnext with h2
            exact congrArg Prod.fst h2
          cases this
        | End =>
          obtain rfl : Chain.mk ch.entries (ch.cur_words.2, Word.End) ch.rng.tail = ch' := by
            injection hnext with h2
            exact congrArg Prod.snd h2
          have habs : alookup (ch.cur_words.2, Word.End) ch.entries = none :=
            alookup_end_none (fun p hp => (hnec p hp).2) _
          refine ⟨rfl, Or.inl rfl, ?_⟩
          simp only [Chain.next, habs]

/-- Witness for C10 at a concrete input: over the one-entry table mapping
`(Start, Start)` to `End`, the first step samples `End` and returns nothing,
and the next step returns nothing again with the state unchanged. -/
theorem C10_chain_fused_witness :
    ∃ ch' : Chain,
      (Chain.mk [(START_WORDS, Entry.new Word.End)] START_WORDS [0]).next =
        .ok (none, ch') ∧
      (ch'.cur_words.2 = Word.End ∨
        alookup ch'.cur_words [(START_WORDS, Entry.new Word.End)] = none) ∧
      ch'.next = .ok (none, ch') := by
  have hnec : NoEndCtx [(START_WORDS, Entry.new Word.End)] := by
    intro p hp
    rcases List.mem_singleton.mp hp with rfl
    exact ⟨(by intro hh; cases hh), (by intro hh; cases hh)⟩
  obtain ⟨_, h2, h3⟩ :=
    C10_chain_fused.2 (Chain.mk [(START_WORDS, Entry.new Word.End)] START_WORDS [0])
      (Chain.mk [(START_WORDS, Entry.new Word.End)] (Word.Start, Word.End) []) hnec rfl
  exact ⟨_, rfl, h2, h3⟩

theorem entryTryFrom_ok {pairs : List (Word × Nat)} (hne : pairs ≠ [])
    (hpos : ∃ q ∈ pairs, 0 < q.2) :
    entryTryFrom pairs = .ok ⟨pairs, ⟨pairs.map Prod.snd⟩⟩ := by
  have hne2 : pairs.map Prod.snd ≠ [] := by
    intro hh
    exact hne (List.map_eq_nil_iff.mp hh)
  have hs : (pairs.map Prod.snd).sum ≠ 0 := by
    intro hh
    obtain ⟨q, hq, hq2⟩ := hpos
    have := List.sum_eq_zero_iff.mp hh q.2 (List.mem_map_of_mem Prod.snd hq)
    omega
  simp only [entryTryFrom, WeightedIndex.new_ok hne2 hs]

theorem markovTryFromGo_map (es : List (WordArray × Entry))
    (hwf : ∀ p ∈ es, p.2.weight_pairs ≠ [] ∧ ∃ q ∈ p.2.weight_pairs, 0 < q.2) :
    markovTryFromGo (es.map (fun p => (p.1, entryIntoMap p.2))) =
      .ok (es.map (fun p =>
        (p.1, ⟨p.2.weight_pairs, ⟨p.2.weight_pairs.map Prod.snd⟩⟩))) := by
  induction es with
  | nil => rfl
  | cons p rest ih =>
    obtain ⟨hne, hpos⟩ := hwf p (List.mem_cons_self _ _)
    have hrest := ih (fun q hq => hwf q (List.mem_cons_of_mem _ hq))
    simp only [entryIntoMap] at hrest
    simp only [List.map_cons, markovTryFromGo, entryIntoMap,
      entryTryFrom_ok hne hpos, hrest]

theorem alookup_map_value (g : Entry → Entry) (es : List (WordArray × Entry))
    (k : WordArray) :
    alookup k (es.map (fun p => (p.1, g p.2))) = (alookup k es).map g := by
  induction es with
  | nil => rfl
  | cons p rest ih =>
    simp only [List.map_cons, alookup]
    by_cases hp : p.1 = k
    · rw [if_pos hp, if_pos hp]
      rfl
    · rw [if_neg hp, if_neg hp]
      exact ih

/-- Claim C9: serialization followed by deserialization is the identity up to
representation. For every well-formed table (each entry non-empty, with
positive weights and no duplicate successor tokens), rebuilding every entry
from its Token-to-count mapping succeeds and reproduces exactly the same set
of contexts, and for each context exactly the same set of (successor, weight)
pairs, so the rebuilt table samples like the original up to the random source. -/
theorem C9_serialization_roundtrip (m : Markov)
    (hwf : ∀ p ∈ m.entries, p.2.weight_pairs ≠ [] ∧
      (∀ q ∈ p.2.weight_pairs, 0 < q.2) ∧
      (p.2.weight_pairs.map Prod.fst).Nodup) :
    ∃ m1, markovTryFrom (markovIntoMap m) = .ok m1 ∧
      (∀ k, k ∈ m1.entries.map Prod.fst ↔ k ∈ m.entries.map Prod.fst) ∧
      (∀ k e e1, alookup k m.entries = some e → alookup k m1.entries = some e1 →
        ∀ q, q ∈ e1.weight_pairs ↔ q ∈ e.weight_pairs) := by
  have hgo := markovTryFromGo_map m.entries (by
    intro p hp
    obtain ⟨hne, hpos, _⟩ := hwf p hp
    refine ⟨hne, ?_⟩
    cases hq : p.2.weight_pairs with
    | nil => exact absurd hq hne
    | cons q rest =>
      exact ⟨q, List.mem_cons_self _ _,
        hpos q (by rw [hq]; exact List.mem_cons_self _ _)⟩)
  refine ⟨⟨m.entries.map (fun p =>
      (p.1, ⟨p.2.weight_pairs, ⟨p.2.weight_pairs.map Prod.snd⟩⟩))⟩, ?_, ?_, ?_⟩
  · simp only [markovTryFrom, markovIntoMap, hgo]
    rfl
  · have hkeys : (m.entries.map (fun p => ((p.1 : WordArray),
        (⟨p.2.weight_pairs, ⟨p.2.weight_pairs.map Prod.snd⟩⟩ : Entry)))).map Prod.fst =
        m.entries.map Prod.fst := by
      rw [List.map_map]
      rfl
    intro k
    rw [hkeys]
  · intro k e e1 hl hl1
    have := alookup_map_value
      (fun e => ⟨e.weight_pairs, ⟨e.weight_pairs.map Prod.snd⟩⟩) m.entries k
    rw [hl] at this
    show (∀ q, q ∈ e1.weight_pairs ↔ q ∈ e.weight_pairs)
    have he1 : e1 = ⟨e.weight_pairs, ⟨e.weight_pairs.map Prod.snd⟩⟩ := by
      rw [this] at hl1
      injection hl1 with h2
      exact h2.symm
    rw [he1]
    intro q
    exact Iff.rfl

/-- Witness for C9 at a concrete input: a table with three contexts, each
holding two weighted successors, survives the round trip. -/
theorem C9_serialization_witness :
    ∃ m1, markovTryFrom (markovIntoMap ⟨[
      (START_WORDS,
        ⟨[(Word.Word "a", 2), (Word.Word "b", 3)], ⟨[2, 3]⟩⟩),
      ((Word.Start, Word.Word "a"),
        ⟨[(Word.Word "b", 1), (Word.End, 4)], ⟨[1, 4]⟩⟩),
      ((Word.Word "a", Word.Word "b"),
        ⟨[(Word.End, 1), (Word.Word "a", 1)], ⟨[1, 1]⟩⟩)]⟩) = .ok m1 ∧
      (∀ k, k ∈ m1.entries.map Prod.fst ↔ k ∈ ([
      (START_WORDS,
        ⟨[(Word.Word "a", 2), (Word.Word "b", 3)], ⟨[2, 3]⟩⟩),
      ((Word.Start, Word.Word "a"),
        ⟨[(Word.Word "b", 1), (Word.End, 4)], ⟨[1, 4]⟩⟩),
      ((Word.Word "a", Word.Word "b"),
        ⟨[(Word.End, 1), (Word.Word "a", 1)], ⟨[1, 1]⟩⟩)] :
          List (WordArray × Entry)).map Prod.fst) ∧
      (∀ k e e1, alookup k ([
      (START_WORDS,
        ⟨[(Word.Word "a", 2), (Word.Word "b", 3)], ⟨[2, 3]⟩⟩),
      ((Word.Start, Word.Word "a"),
        ⟨[(Word.Word "b", 1), (Word.End, 4)], ⟨[1, 4]⟩⟩),
      ((Word.Word "a", Word.Word "b"),
        ⟨[(Word.End, 1), (Word.Word "a", 1)], ⟨[1, 1]⟩⟩)] :
          List (WordArray × Entry)) = some e →
        alookup k m1.entries = some e1 →
        ∀ q, q ∈ e1.weight_pairs ↔ q ∈ e.weight_pairs) :=
  C9_serialization_roundtrip _ (by decide)

theorem alookup_some_mem_keys {es : List (WordArray × Entry)} {k : WordArray}
    {e : Entry} (h : alookup k es = some e) : k ∈ es.map Prod.fst := by
  induction es with
  | nil => cases h
  | cons p rest ih =>
    simp only [alookup] at h
    by_cases hp : p.1 = k
    · simp [hp]
    · rw [if_neg hp] at h
      simp [ih h]

theorem mem_keys_alookup {es : List (WordArray × Entry)} {k : WordArray}
    (h : k ∈ es.map Prod.fst) : ∃ e, alookup k es = some e := by
  induction es with
  | nil => cases h
  | cons p rest ih =>
    by_cases hp : p.1 = k
    · exact ⟨p.2, by simp [alookup, hp]⟩
    · simp only [List.map_cons, List.mem_cons] at h
      rcases h with rfl | h2
      · exact absurd rfl hp
      · obtain ⟨e, he⟩ := ih h2
        exact ⟨e, by simp [alookup, hp, he]⟩

theorem cleanVisit_nil (entries : List (WordArray × Entry)) (visited : List WordArray) :
    cleanVisit entries visited [] = visited := by
  simp [cleanVisit]

theorem cleanVisit_cons_none {entries : List (WordArray × Entry)} {key : WordArray}
    (h : alookup key entries = none) (visited rest : List WordArray) :
    cleanVisit entries visited (key :: rest) = cleanVisit entries visited rest := by
  rw [cleanVisit]
  split
  next heq => rfl
  next e2 heq =>
    rw [h] at heq
    cases heq

theorem cleanVisit_cons_mem {entries : List (WordArray × Entry)} {key : WordArray}
    {e : Entry} (h : alookup key entries = some e) {visited : List WordArray}
    (hv : key ∈ visited) (rest : List WordArray) :
    cleanVisit entries visited (key :: rest) = cleanVisit entries visited rest := by
  rw [cleanVisit]
  split
  · rfl
  · rename_i e2 heq
    rw [dif_pos hv]

theorem cleanVisit_cons_new {entries : List (WordArray × Entry)} {key : WordArray}
    {e : Entry} (h : alookup key entries = some e) {visited : List WordArray}
    (hv : key ∉ visited) (rest : List WordArray) :
    cleanVisit entries visited (key :: rest) =
      cleanVisit entries (key :: visited)
        (e.weight_pairs.map (fun p => (key.2, p.1)) ++ rest) := by
  rw [cleanVisit]
  split
  · rename_i heq
    rw [h] at heq
    cases heq
  · rename_i e2 heq
    rw [h] at heq
    obtain rfl : e = e2 := by injection heq
    rw [dif_neg hv]

theorem cleanVisit_visited_subset (entries : List (WordArray × Entry)) :
    ∀ (visited stack : List WordArray), ∀ v ∈ visited,
      v ∈ cleanVisit entries visited stack := by
  intro visited stack
  induction visited, stack using cleanVisit.induct entries with
  | case1 visited =>
    intro v hv
    rw [cleanVisit_nil]
    exact hv
  | case2 visited key rest hnone ih =>
    intro v hv
    rw [cleanVisit_cons_none hnone]
    exact ih v hv
  | case3 visited key rest e hsome hmem ih =>
    intro v hv
    rw [cleanVisit_cons_mem hsome hmem]
    exact ih v hv
  | case4 visited key rest e hsome hnv ih =>
    intro v hv
    rw [cleanVisit_cons_new hsome hnv]
    exact ih v (List.mem_cons_of_mem _ hv)

theorem cleanVisit_stack_mem (entries : List (WordArray × Entry)) :
    ∀ (visited stack : List WordArray), ∀ k ∈ stack,
      (∃ e, alookup k entries = some e) → k ∈ cleanVisit entries visited stack := by
  intro visited stack
  induction visited, stack using cleanVisit.induct entries with
  | case1 visited =>
    intro k hk
    cases hk
  | case2 visited key rest hnone ih =>
    intro k hk hke
    rw [cleanVisit_cons_none hnone]
    rcases List.mem_cons.mp hk with rfl | hk2
    · obtain ⟨e, he⟩ := hke
      rw [hnone] at he
      cases he
    · exact ih k hk2 hke
  | case3 visited key rest e hsome hmem ih =>
    intro k hk hke
    rw [cleanVisit_cons_mem hsome hmem]
    rcases List.mem_cons.mp hk with rfl | hk2
    · exact cleanVisit_visited_subset entries _ _ k hmem
    · exact ih k hk2 hke
  | case4 visited key rest e hsome hnv ih =>
    intro k hk hke
    rw [cleanVisit_cons_new hsome hnv]
    rcases List.mem_cons.mp hk with rfl | hk2
    · exact cleanVisit_visited_subset entries _ _ k (List.mem_cons_self _ _)
    · exact ih k (List.mem_append_right _ hk2) hke

theorem cleanVisit_sound (entries : List (WordArray × Entry)) :
    ∀ (visited stack : List WordArray),
      (∀ v ∈ visited, Reaches entries v ∧ v ∈ entries.map Prod.fst) →
      (∀ s ∈ stack, Reaches entries s) →
      ∀ v ∈ cleanVisit entries visited stack,
        Reaches entries v ∧ v ∈ entries.map Prod.fst := by
  intro visited stack
  induction visited, stack using cleanVisit.induct entries with
  | case1 visited =>
    intro hvis hstk v hv
    rw [cleanVisit_nil] at hv
    exact hvis v hv
  | case2 visited key rest hnone ih =>
    intro hvis hstk v hv
    rw [cleanVisit_cons_none hnone] at hv
    exact ih hvis (fun s hs => hstk s (List.mem_cons_of_mem _ hs)) v hv
  | case3 visited key rest e hsome hmem ih =>
    intro hvis hstk v hv
    rw [cleanVisit_cons_mem hsome hmem] at hv
    exact ih hvis (fun s hs => hstk s (List.mem_cons_of_mem _ hs)) v hv
  | case4 visited key rest e hsome hnv ih =>
    intro hvis hstk v hv
    rw [cleanVisit_cons_new hsome hnv] at hv
    refine ih ?_ ?_ v hv
    · intro v2 hv2
      rcases List.mem_cons.mp hv2 with rfl | hv3
      · exact ⟨hstk v2 (List.mem_cons_self _ _), alookup_some_mem_keys hsome⟩
      · exact hvis v2 hv3
    · intro s hs
      rcases List.mem_append.mp hs with hsl | hsr
      · obtain ⟨q, hq, rfl⟩ := List.mem_map.mp hsl
        exact Reaches.step (hstk key (List.mem_cons_self _ _)) hsome
          (by rw [← Prod.mk.eta (p := q)] at hq; exact hq)
      · exact hstk s (List.mem_cons_of_mem _ hsr)

theorem cleanVisit_closed (entries : List (WordArray × Entry)) :
    ∀ (visited stack : List WordArray),
      (∀ v ∈ visited, ∀ e, alookup v entries = some e →
        ∀ q ∈ e.weight_pairs, (v.2, q.1) ∈ visited ∨ (v.2, q.1) ∈ stack ∨
          alookup (v.2, q.1) entries = none) →
      ∀ v ∈ cleanVisit entries visited stack, ∀ e, alookup v entries = some e →
        ∀ q ∈ e.weight_pairs, (v.2, q.1) ∈ cleanVisit entries visited stack ∨
          alookup (v.2, q.1) entries = none := by
  intro visited stack
  induction visited, stack using cleanVisit.induct entries with
  | case1 visited =>
    intro hinv v hv e he q hq
    rw [cleanVisit_nil] at hv ⊢
    rcases hinv v hv e he q hq with h1 | h1 | h1
    · exact Or.inl h1
    · cases h1
    · exact Or.inr h1
  | case2 visited key rest hnone ih =>
    intro hinv
    rw [cleanVisit_cons_none hnone]
    refine ih ?_
    intro v hv e he q hq
    rcases hinv v hv e he q hq with h1 | h1 | h1
    · exact Or.inl h1
    · rcases List.mem_cons.mp h1 with rfl | h2
      · exact Or.inr (Or.inr hnone)
      · exact Or.inr (Or.inl h2)
    · exact Or.inr (Or.inr h1)
  | case3 visited key rest e hsome hmem ih =>
    intro hinv
    rw [cleanVisit_cons_mem hsome hmem]
    refine ih ?_
    intro v hv e2 he q hq
    rcases hinv v hv e2 he q hq with h1 | h1 | h1
    · exact Or.inl h1
    · rcases List.mem_cons.mp h1 with rfl | h2
      · exact Or.inl hmem
      · exact Or.inr (Or.inl h2)
    · exact Or.inr (Or.inr h1)
  | case4 visited key rest e hsome hnv ih =>
    intro hinv
    rw [cleanVisit_cons_new hsome hnv]
    refine ih ?_
    intro v hv e2 he q hq
    rcases List.mem_cons.mp hv with rfl | hv2
    · rw [hsome] at he
      obtain rfl : e = e2 := by injection he
      refine Or.inr (Or.inl (List.mem_append_left _ ?_))
      exact List.mem_map.mpr ⟨q, hq, rfl⟩
    · rcases hinv v hv2 e2 he q hq with h1 | h1 | h1
      · exact Or.inl (List.mem_cons_of_mem _ h1)
      · rcases List.mem_cons.mp h1 with heq | h2
        · exact Or.inl (by rw [heq]; exact List.mem_cons_self _ _)
        · exact Or.inr (Or.inl (List.mem_append_right _ h2))
      · exact Or.inr (Or.inr h1)

theorem cleanVisit_complete (entries : List (WordArray × Entry)) (c : WordArray)
    (hreach : Reaches entries c) :
    c ∈ entries.map Prod.fst → c ∈ cleanVisit entries [] [START_WORDS] := by
  induction hreach with
  | start =>
    intro hpres
    exact cleanVisit_stack_mem entries [] [START_WORDS] _ (List.mem_cons_self _ _)
      (mem_keys_alookup hpres)
  | step hc hsome hq ih =>
    intro hpres
    have hc0 := ih (alookup_some_mem_keys hsome)
    have hclosed := cleanVisit_closed entries [] [START_WORDS]
      (by intro v hv; cases hv) _ hc0 _ hsome _ hq
    rcases hclosed with hin | hnone
    · exact hin
    · obtain ⟨e2, he2⟩ := mem_keys_alookup hpres
      rw [he2] at hnone
      cases hnone

theorem cleanVisit_mem_iff (entries : List (WordArray × Entry)) (k : WordArray) :
    k ∈ cleanVisit entries [] [START_WORDS] ↔
      (Reaches entries k ∧ k ∈ entries.map Prod.fst) := by
  constructor
  · intro hk
    exact cleanVisit_sound entries [] [START_WORDS]
      (by intro v hv; cases hv) (by
        intro s hs
        rcases List.mem_cons.mp hs with rfl | h2
        · exact Reaches.start
        · cases h2) k hk
  · rintro ⟨hreach, hpres⟩
    exact cleanVisit_complete entries k hreach hpres

/-- Claim C5: after `clean()` returns, a context remains in the table exactly
when it was present after phase 1 and is reachable from `(Start, Start)` by
repeatedly moving from a context `(p2, p1)` to `(p1, s)` for a successor `s` of
that context's entry as it stands after phase 1 (`Reaches`); in particular a
context never connected to `(Start, Start)` by any successor chain is removed,
and every connected one (through chains of any length) is retained. -/
theorem C5_reachability_pruning (m m1 m2 : Markov) (n : Nat)
    (h1 : m.cleanPhase1 = .ok m1) (h : m.clean = .ok (m2, n)) :
    ∀ k, k ∈ m2.entries.map Prod.fst ↔
      (k ∈ m1.entries.map Prod.fst ∧ Reaches m1.entries k) := by
  obtain ⟨m1x, hp1, hm2, _⟩ := clean_ok_elim h
  rw [h1] at hp1
  obtain rfl : m1 = m1x := by injection hp1
  intro k
  rw [hm2]
  constructor
  · intro hk
    obtain ⟨p, hp, rfl⟩ := List.mem_map.mp hk
    have hf := List.mem_filter.mp hp
    have hvis : p.1 ∈ cleanVisit m1.entries [] [START_WORDS] :=
      of_decide_eq_true hf.2
    have hiff := (cleanVisit_mem_iff m1.entries p.1).mp hvis
    exact ⟨List.mem_map_of_mem Prod.fst hf.1, hiff.1⟩
  · rintro ⟨hkeys, hreach⟩
    have hvis := (cleanVisit_mem_iff m1.entries k).mpr ⟨hreach, hkeys⟩
    obtain ⟨p, hp, rfl⟩ := List.mem_map.mp hkeys
    exact List.mem_map_of_mem Prod.fst
      (List.mem_filter.mpr ⟨hp, decide_eq_true hvis⟩)

/-- Witness for C5 at a concrete input: in a table whose start entry holds
"a" at weight 2 and which also stores the never-connected context
(Word "x", Word "y"), clean keeps the start context, removes the unreachable
one, and the removed context indeed fails the reachability criterion. -/
theorem C5_reachability_witness :
    Markov.clean ⟨[(START_WORDS, ⟨[(Word.Word "a", 2)], ⟨[2]⟩⟩),
      ((Word.Word "x", Word.Word "y"), ⟨[(Word.End, 1)], ⟨[1]⟩⟩)]⟩ =
      .ok (⟨[(START_WORDS, ⟨[(Word.Word "a", 2)], ⟨[2]⟩⟩)]⟩, 1) ∧
    ((Word.Word "x", Word.Word "y") ∈
        ([(START_WORDS, (⟨[(Word.Word "a", 2)], ⟨[2]⟩⟩ : Entry))] :
          List (WordArray × Entry)).map Prod.fst ↔
      ((Word.Word "x", Word.Word "y") ∈
          ([(START_WORDS, (⟨[(Word.Word "a", 2)], ⟨[2]⟩⟩ : Entry)),
            ((Word.Word "x", Word.Word "y"), ⟨[(Word.End, 1)], ⟨[1]⟩⟩)] :
            List (WordArray × Entry)).map Prod.fst ∧
        Reaches [(START_WORDS, (⟨[(Word.Word "a", 2)], ⟨[2]⟩⟩ : Entry)),
            ((Word.Word "x", Word.Word "y"), ⟨[(Word.End, 1)], ⟨[1]⟩⟩)]
          (Word.Word "x", Word.Word "y"))) := by
  have h1 : Markov.cleanPhase1 ⟨[(START_WORDS, ⟨[(Word.Word "a", 2)], ⟨[2]⟩⟩),
      ((Word.Word "x", Word.Word "y"), ⟨[(Word.End, 1)], ⟨[1]⟩⟩)]⟩ =
      .ok ⟨[(START_WORDS, ⟨[(Word.Word "a", 2)], ⟨[2]⟩⟩),
      ((Word.Word "x", Word.Word "y"), ⟨[(Word.End, 1)], ⟨[1]⟩⟩)]⟩ := rfl
  have hclean : Markov.clean ⟨[(START_WORDS, ⟨[(Word.Word "a", 2)], ⟨[2]⟩⟩),
      ((Word.Word "x", Word.Word "y"), ⟨[(Word.End, 1)], ⟨[1]⟩⟩)]⟩ =
      .ok (⟨[(START_WORDS, ⟨[(Word.Word "a", 2)], ⟨[2]⟩⟩)]⟩, 1) := by
    show Markov.cleanPhase1 _ >>= _ = _
    rw [h1, except_bind_ok]
    simp [cleanVisit, alookup, START_WORDS]
  exact ⟨hclean, C5_reachability_pruning _ _ _ _ h1 hclean _⟩

theorem alookup_filter_prop {es : List (WordArray × Entry)} {k : WordArray}
    (f : WordArray → Bool) (hk : f k = true) :
    alookup k (es.filter (fun p => f p.1)) = alookup k es := by
  induction es with
  | nil => rfl
  | cons p rest ih =>
    by_cases hp : p.1 = k
    · rw [List.filter_cons, hp, hk]
      simp only [if_true, alookup, if_pos hp]
    · rw [List.filter_cons]
      cases hf : f p.1 with
      | true =>
        simp only [if_true, alookup, if_neg hp]
        exact ih
      | false =>
        simp only [Bool.false_eq_true, if_false, alookup, if_neg hp]
        rw [ih]

theorem alookup_filter_prop_false {es : List (WordArray × Entry)} {k : WordArray}
    (f : WordArray → Bool) (hk : f k = false) :
    alookup k (es.filter (fun p => f p.1)) = none := by
  induction es with
  | nil => rfl
  | cons p rest ih =>
    by_cases hp : p.1 = k
    · rw [List.filter_cons, hp, hk]
      simp only [Bool.false_eq_true, if_false]
      exact ih
    · rw [List.filter_cons]
      cases hf : f p.1 with
      | true =>
        simp only [if_true, alookup, if_neg hp]
        exact ih
      | false =>
        simp only [Bool.false_eq_true, if_false]
        exact ih

theorem alookup_setEntry_self {es : List (WordArray × Entry)} {k : WordArray}
    {e0 : Entry} (h : alookup k es = some e0) (e2 : Entry) :
    alookup k (setEntry es k e2) = some e2 := by
  induction es with
  | nil => cases h
  | cons p rest ih =>
    simp only [setEntry, List.map_cons]
    by_cases hp : p.1 = k
    · rw [if_pos hp]
      simp [alookup]
    · rw [if_neg hp]
      simp only [alookup, if_neg hp]
      simp only [alookup, if_neg hp] at h
      exact ih h

theorem alookup_setEntry_ne {es : List (WordArray × Entry)} {k k2 : WordArray}
    (hne : k2 ≠ k) (e2 : Entry) :
    alookup k2 (setEntry es k e2) = alookup k2 es := by
  induction es with
  | nil => rfl
  | cons p rest ih =>
    simp only [setEntry, List.map_cons]
    by_cases hp : p.1 = k
    · rw [if_pos hp]
      have hne2 : ¬ k = k2 := fun hh => hne hh.symm
      simp only [alookup, if_neg hne2]
      rw [← hp] at hne2
      simp only [alookup, if_neg hne2]
      exact ih
    · rw [if_neg hp]
      simp only [alookup]
      by_cases hp2 : p.1 = k2
      · rw [if_pos hp2, if_pos hp2]
      · rw [if_neg hp2, if_neg hp2]
        exact ih

/-- Claim C4: for every table whose `(Start, Start)` entry holds exactly the
successors `{A: 1, B: 5}` (in either storage order), where `A ≠ B` and `A` is
not the `Start` sentinel (the data model never stores `Start` as a successor),
`clean()` succeeds and afterwards: `A` is no longer among `(Start, Start)`'s
successor pairs while `B` remains; the context `(Start, A)` is absent from the
result, so in particular it is removed whenever it has no other inbound path;
phase 1 leaves every other context's entry untouched (only the start context
is frequency-pruned); and the returned value is exactly the table size before
the call minus the size after. -/
theorem C4_start_pruning (m : Markov) (A B : Word) (eSS : Entry)
    (hA : A ≠ Word.Start) (hAB : A ≠ B)
    (hSS : alookup START_WORDS m.entries = some eSS)
    (hpairs : eSS.weight_pairs = [(A, 1), (B, 5)] ∨
      eSS.weight_pairs = [(B, 5), (A, 1)]) :
    ∃ m1 m2 n, m.cleanPhase1 = .ok m1 ∧ m.clean = .ok (m2, n) ∧
      (∀ k e1, k ≠ START_WORDS → alookup k m1.entries = some e1 →
        alookup k m.entries = some e1) ∧
      (∃ e2, alookup START_WORDS m2.entries = some e2 ∧
        A ∉ e2.weight_pairs.map Prod.fst ∧ B ∈ e2.weight_pairs.map Prod.fst) ∧
      alookup (Word.Start, A) m2.entries = none ∧
      n = m.entries.length - m2.entries.length := by
  have hkept : eSS.weight_pairs.filter (fun p => decide (1 < p.2)) = [(B, 5)] := by
    rcases hpairs with hp | hp <;> rw [hp] <;> rfl
  have hrem : (eSS.weight_pairs.filter (fun p => decide (p.2 ≤ 1))).map Prod.fst
      = [A] := by
    rcases hpairs with hp | hp <;> rw [hp] <;> rfl
  have hphase1 : m.cleanPhase1 = .ok ⟨(setEntry m.entries START_WORDS
      ⟨[(B, 5)], ⟨[5]⟩⟩).filter (fun p => decide (p.1 ≠ (Word.Start, A)))⟩ := by
    unfold Markov.cleanPhase1
    simp only [hSS, hkept, hrem]
    rfl
  have hclean : m.clean = .ok (⟨((setEntry m.entries START_WORDS
        ⟨[(B, 5)], ⟨[5]⟩⟩).filter (fun p => decide (p.1 ≠ (Word.Start, A)))).filter
          (fun p => decide (p.1 ∈ cleanVisit ((setEntry m.entries START_WORDS
            ⟨[(B, 5)], ⟨[5]⟩⟩).filter (fun p => decide (p.1 ≠ (Word.Start, A))))
            [] [START_WORDS]))⟩,
      m.entries.length - (((setEntry m.entries START_WORDS
        ⟨[(B, 5)], ⟨[5]⟩⟩).filter (fun p => decide (p.1 ≠ (Word.Start, A)))).filter
          (fun p => decide (p.1 ∈ cleanVisit ((setEntry m.entries START_WORDS
            ⟨[(B, 5)], ⟨[5]⟩⟩).filter (fun p => decide (p.1 ≠ (Word.Start, A))))
            [] [START_WORDS]))).length) := by
    show m.cleanPhase1 >>= _ = _
    rw [hphase1, except_bind_ok]
  have hSTARTne : START_WORDS ≠ (Word.Start, A) := by
    intro hh
    exact hA (congrArg Prod.snd hh).symm
  have hm1START : alookup START_WORDS ((setEntry m.entries START_WORDS
      ⟨[(B, 5)], ⟨[5]⟩⟩).filter (fun p => decide (p.1 ≠ (Word.Start, A)))) =
      some ⟨[(B, 5)], ⟨[5]⟩⟩ := by
    rw [alookup_filter_prop (fun x => decide (x ≠ (Word.Start, A)))
      (decide_eq_true hSTARTne)]
    exact alookup_setEntry_self hSS _
  have hSTARTvis : START_WORDS ∈ cleanVisit ((setEntry m.entries START_WORDS
      ⟨[(B, 5)], ⟨[5]⟩⟩).filter (fun p => decide (p.1 ≠ (Word.Start, A))))
      [] [START_WORDS] :=
    cleanVisit_stack_mem _ _ _ _ (List.mem_cons_self _ _) ⟨_, hm1START⟩
  have hAA : (decide ((Word.Start, A) ≠ (Word.Start, A)) : Bool) = false :=
    decide_eq_false (fun hh => hh rfl)
  have hm1A : alookup (Word.Start, A) ((setEntry m.entries START_WORDS
      ⟨[(B, 5)], ⟨[5]⟩⟩).filter (fun p => decide (p.1 ≠ (Word.Start, A)))) = none :=
    alookup_filter_prop_false (fun x => decide (x ≠ (Word.Start, A))) hAA
  refine ⟨_, _, _, hphase1, hclean, ?_, ?_, ?_, ?_⟩
  · intro k e1 hkS hlk
    by_cases hkA : k = (Word.Start, A)
    · rw [hkA, hm1A] at hlk
      cases hlk
    · rw [alookup_filter_prop (fun x => decide (x ≠ (Word.Start, A)))
        (decide_eq_true hkA), alookup_setEntry_ne hkS] at hlk
      exact hlk
  · refine ⟨⟨[(B, 5)], ⟨[5]⟩⟩, ?_, ?_, ?_⟩
    · rw [alookup_filter_prop (fun x => decide (x ∈ cleanVisit ((setEntry m.entries
        START_WORDS ⟨[(B, 5)], ⟨[5]⟩⟩).filter
          (fun p => decide (p.1 ≠ (Word.Start, A)))) [] [START_WORDS]))
        (decide_eq_true hSTARTvis)]
      exact hm1START
    · intro hh
      rcases List.mem_singleton.mp (by simpa using hh) with rfl
      exact hAB rfl
    · simp
  · cases hv : (decide ((Word.Start, A) ∈ cleanVisit ((setEntry m.entries START_WORDS
        ⟨[(B, 5)], ⟨[5]⟩⟩).filter (fun p => decide (p.1 ≠ (Word.Start, A))))
        [] [START_WORDS]) : Bool) with
    | true =>
      rw [alookup_filter_prop (fun x => decide (x ∈ cleanVisit ((setEntry m.entries
        START_WORDS ⟨[(B, 5)], ⟨[5]⟩⟩).filter
          (fun p => decide (p.1 ≠ (Word.Start, A)))) [] [START_WORDS])) hv]
      exact hm1A
    | false =>
      exact alookup_filter_prop_false (fun x => decide (x ∈ cleanVisit ((setEntry
        m.entries START_WORDS ⟨[(B, 5)], ⟨[5]⟩⟩).filter
          (fun p => decide (p.1 ≠ (Word.Start, A)))) [] [START_WORDS])) hv
  · rfl

/-- Witness for C4 at a concrete input: a table whose start entry is
`{"a": 1, "b": 5}` and which also stores the context `(Start, Word "a")`. -/
theorem C4_start_pruning_witness :
    ∃ m1 m2 n,
      Markov.cleanPhase1 ⟨[(START_WORDS,
          ⟨[(Word.Word "a", 1), (Word.Word "b", 5)], ⟨[1, 5]⟩⟩),
        ((Word.Start, Word.Word "a"), ⟨[(Word.End, 1)], ⟨[1]⟩⟩)]⟩ = .ok m1 ∧
      Markov.clean ⟨[(START_WORDS,
          ⟨[(Word.Word "a", 1), (Word.Word "b", 5)], ⟨[1, 5]⟩⟩),
        ((Word.Start, Word.Word "a"), ⟨[(Word.End, 1)], ⟨[1]⟩⟩)]⟩ = .ok (m2, n) ∧
      (∀ k e1, k ≠ START_WORDS → alookup k m1.entries = some e1 →
        alookup k [(START_WORDS,
          (⟨[(Word.Word "a", 1), (Word.Word "b", 5)], ⟨[1, 5]⟩⟩ : Entry)),
        ((Word.Start, Word.Word "a"), ⟨[(Word.End, 1)], ⟨[1]⟩⟩)] = some e1) ∧
      (∃ e2, alookup START_WORDS m2.entries = some e2 ∧
        Word.Word "a" ∉ e2.weight_pairs.map Prod.fst ∧
        Word.Word "b" ∈ e2.weight_pairs.map Prod.fst) ∧
      alookup (Word.Start, Word.Word "a") m2.entries = none ∧
      n = 2 - m2.entries.length :=
  C4_start_pruning _ (Word.Word "a") (Word.Word "b") _
    (by decide) (by decide) rfl (Or.inl rfl)
